import Mathlib

/-!
Verification of the `html-ingestor` text-normalization pipeline.

The development shallowly embeds `src/html_ingestor/parsers/html_parser.py`:

* `clean_html` is the ordered sequence of nine `re.sub` rewrites of
  `HtmlParser.clean_html` (lines 111-135), modelled as scanner functions over
  `List Char` that reproduce Python's leftmost, ordered-alternation,
  greedy/lazy matching semantics for the concrete patterns used there.
* `reduceNode` / `reduceForest` model the whitelist unwrap/attribute-strip
  traversal of `HtmlParser.parse_text_with_structure` (lines 79-83).
* `parse_text_with_structure_except` models the `try/except` wrapper
  (lines 88-90) that logs and converts any exception into
  `HTMLParsingError("Failed to process HTML: ...")`.

Strings are modelled as `List Char`; `chars` converts a literal.
-/

namespace HtmlIngestor

/-- Character list of a string literal. -/
def chars (s : String) : List Char := s.data

/-- Python's `\s` character class for Unicode strings (the set accepted by
`str.isspace`): used by the per-line trim `re.sub(r"^\s+|\s+$", "", html,
flags=re.MULTILINE)` and by `str.strip()`. -/
def isPySpace (c : Char) : Bool :=
  let n := c.toNat
  decide ((9 ≤ n ∧ n ≤ 13) ∨ n = 28 ∨ n = 29 ∨ n = 30 ∨ n = 31 ∨ n = 32 ∨
    n = 0x85 ∨ n = 0xa0 ∨ n = 0x1680 ∨ (0x2000 ≤ n ∧ n ≤ 0x200a) ∨
    n = 0x2028 ∨ n = 0x2029 ∨ n = 0x202f ∨ n = 0x205f ∨ n = 0x3000)

/-- The separator-space class of step 7, replaced by a regular space:
`U+2000..U+200A, U+2028, U+2029, U+202F, U+205F, U+3000`. -/
def isSeparator (c : Char) : Bool :=
  let n := c.toNat
  decide ((0x2000 ≤ n ∧ n ≤ 0x200a) ∨ n = 0x2028 ∨ n = 0x2029 ∨
    n = 0x202f ∨ n = 0x205f ∨ n = 0x3000)

/-- The control/format removal class of step 8, removed outright:
`U+0000..U+0008, U+000B, U+000C, U+000E..U+001F, U+007F..U+009F,
U+200B..U+200F, U+202A..U+202E, U+FEFF`. -/
def isControlFmt (c : Char) : Bool :=
  let n := c.toNat
  decide (n ≤ 8 ∨ n = 0xb ∨ n = 0xc ∨ (0xe ≤ n ∧ n ≤ 0x1f) ∨
    (0x7f ≤ n ∧ n ≤ 0x9f) ∨ (0x200b ≤ n ∧ n ≤ 0x200f) ∨
    (0x202a ≤ n ∧ n ≤ 0x202e) ∨ n = 0xfeff)

/-- `startsWith pat s`: `s` begins with the literal pattern `pat`. -/
def startsWith : List Char → List Char → Bool
  | [], _ => true
  | _ :: _, [] => false
  | p :: ps, c :: cs => p == c && startsWith ps cs

/-- Collapse every run of the character `t` to a single `t`; the flag records
whether the previously consumed character was `t`.  With `t = '\n'` this is
`re.sub(r"\n+", "\n", html)` (steps 1 and 6); with `t = ' '` it is
`re.sub(r" +", " ", html)` (step 9). -/
def squeezeAux (t : Char) : Bool → List Char → List Char
  | _, [] => []
  | prev, c :: cs =>
    if c == t then
      if prev then squeezeAux t true cs else c :: squeezeAux t true cs
    else c :: squeezeAux t false cs

/-- Collapse runs of `t` into a single `t`. -/
def squeeze (t : Char) (s : List Char) : List Char := squeezeAux t false s

/-- Largest index of `'\n'` in `l`. -/
def findLastNl : List Char → Option Nat
  | [] => none
  | c :: cs =>
    match findLastNl cs with
    | some j => some (j + 1)
    | none => if c == '\n' then some 0 else none

/-- Largest index `j ≥ 1` with `l[j] = '\n'` (a backtracking target of `\s+$`:
the match `\s+` must be non-empty and `$` holds just before a newline). -/
def lastNlOffset (l : List Char) : Option Nat :=
  match l with
  | [] => none
  | _ :: tail => (findLastNl tail).map (fun j => j + 1)

/-- One leftmost scan of `re.sub(r"^\s+|\s+$", "", html, flags=re.MULTILINE)`
(step 2).  `lineStart` records whether the current position is the string
start or just after `'\n'` (the MULTILINE `^`).  At a whitespace run:
`^\s+` removes the whole run when at a line start; otherwise `\s+$` removes
the run when it reaches the string end, or its longest head ending just
before an interior `'\n'`; otherwise there is no match here and the single
character is kept. -/
def trimLinesAux : Nat → Bool → List Char → List Char
  | 0, _, s => s
  | fuel + 1, lineStart, s =>
    match s with
    | [] => []
    | c :: rest =>
      if isPySpace c then
        let run := (c :: rest).takeWhile isPySpace
        let after := (c :: rest).drop run.length
        if lineStart then
          trimLinesAux fuel (run.getLast? == some '\n') after
        else if after.isEmpty then
          []
        else
          match lastNlOffset run with
          | some j =>
            trimLinesAux fuel ((run.drop (j - 1)).head? == some '\n')
              ((c :: rest).drop j)
          | none => c :: trimLinesAux fuel (c == '\n') rest
      else
        c :: trimLinesAux fuel (c == '\n') rest

/-- Step 2: strip leading/trailing whitespace of every line. -/
def trimLines (s : List Char) : List Char := trimLinesAux (s.length + 1) true s

/-- Index of the first occurrence of `ch`. -/
def findChar (ch : Char) : List Char → Option Nat
  | [] => none
  | c :: cs => if c == ch then some 0 else (findChar ch cs).map (fun n => n + 1)

/-- Ordered alternation `</(?:t1|...|tn)>` at the current position, after the
literal `</` has been consumed: the first tag `t` of `tags` such that
`t ++ ">"` follows yields a closing tag of length `t.length + 3`. -/
def tryCloseTags : List (List Char) → List Char → Option Nat
  | [], _ => none
  | t :: ts, r =>
    if startsWith (t ++ ['>']) r then some (t.length + 3)
    else tryCloseTags ts r

/-- Match `</(?:t1|...|tn)>` at the head of `s`, returning its length. -/
def matchClosing (tags : List (List Char)) (s : List Char) : Option Nat :=
  if startsWith (chars ("</")) s then tryCloseTags tags (s.drop 2) else none

/-- Lazy search of `(.+?)(</(?:...)>)`: the least offset at which a closing
tag matches, together with that closing tag's length. -/
def scanClosing (tags : List (List Char)) : List Char → Option (Nat × Nat)
  | [] => none
  | c :: cs =>
    match matchClosing tags (c :: cs) with
    | some clen => some (0, clen)
    | none => (scanClosing tags cs).map (fun p => (p.1 + 1, p.2))

/-- After an opening tag name of length `tlen` has matched, finish
`[^>]*>(.+?)(</(?:...)>)`: `[^>]*>` reaches the first `'>'` (offset `k` in
`afterName`), the content is non-empty and lazy, and the whole match length
is returned. -/
def attemptAfterName (all : List (List Char)) (afterName : List Char)
    (tlen : Nat) : Option Nat :=
  match findChar '>' afterName with
  | none => none
  | some k =>
    match afterName.drop (k + 1) with
    | [] => none
    | _ :: contentTail =>
      (scanClosing all contentTail).map
        (fun p => 1 + tlen + k + 1 + 1 + p.1 + p.2)

/-- Ordered alternation `(?:t1|...|tn)` of the opening tag: try each tag in
order; on failure of the rest of the pattern, backtrack to the next tag. -/
def tryOpenTags (all : List (List Char)) :
    List (List Char) → List Char → Option Nat
  | [], _ => none
  | t :: ts, r =>
    match (if startsWith t r then attemptAfterName all (r.drop t.length) t.length
           else none) with
    | some n => some n
    | none => tryOpenTags all ts r

/-- Match the step-3 pattern
`(<(?:t1|...|tn)[^>]*>)(.+?)(</(?:t1|...|tn)>)` (with `re.DOTALL`) at the
head of `s`, returning the length of the whole match. -/
def matchBlockAt (tags : List (List Char)) (s : List Char) : Option Nat :=
  match s with
  | [] => none
  | c :: rest => if c == '<' then tryOpenTags tags tags rest else none

/-- Step 3 scanner: `re.sub(pattern, r"\1\2\3\n", html, flags=re.DOTALL)` —
on a match, keep the matched text and append one `'\n'`, then continue after
the match; otherwise keep one character and continue. -/
def blockNewlinesAux (tags : List (List Char)) : Nat → List Char → List Char
  | 0, s => s
  | fuel + 1, s =>
    match s with
    | [] => []
    | c :: rest =>
      match matchBlockAt tags (c :: rest) with
      | some n =>
        (c :: rest).take n ++ '\n' :: blockNewlinesAux tags fuel ((c :: rest).drop n)
      | none => c :: blockNewlinesAux tags fuel rest

/-- Step 3: insert a newline after each matched block element. -/
def blockNewlines (tags : List (List Char)) (s : List Char) : List Char :=
  blockNewlinesAux tags (s.length + 1) s

/-- Least offset at which the literal `pat` occurs, provided no `'\n'` is
passed over before it: the step-4 `re.sub` has no `re.DOTALL` flag, so its
`.` cannot match a newline and the lazy content must stop at one. -/
def scanForNoNl (pat : List Char) : List Char → Option Nat
  | [] => if startsWith pat [] then some 0 else none
  | c :: cs =>
    if startsWith pat (c :: cs) then some 0
    else if c == '\n' then none
    else (scanForNoNl pat cs).map (fun n => n + 1)

/-- Match `<li>(.+?)</li>` at the head of `s`, returning the match length:
the literal `<li>`, at least one content character, then the first `</li>`;
without `re.DOTALL`, no content character may be a newline. -/
def matchLiAt (s : List Char) : Option Nat :=
  if startsWith (chars ("<li>")) s then
    match s.drop 4 with
    | [] => none
    | c4 :: rest4 =>
      if c4 == '\n' then none
      else (scanForNoNl (chars ("</li>")) rest4).map (fun off => off + 10)
  else none

/-- Step 4 scanner: `re.sub(r"<li>(.+?)</li>", r"<li>\1</li>\n", html)`. -/
def liNewlinesAux : Nat → List Char → List Char
  | 0, s => s
  | fuel + 1, s =>
    match s with
    | [] => []
    | c :: rest =>
      match matchLiAt (c :: rest) with
      | some n =>
        (c :: rest).take n ++ '\n' :: liNewlinesAux fuel ((c :: rest).drop n)
      | none => c :: liNewlinesAux fuel rest

/-- Step 4: insert a newline after each `<li>...</li>` span. -/
def liNewlines (s : List Char) : List Char := liNewlinesAux (s.length + 1) s

/-- Step 5 scanner: `re.sub(r"<div[^>]*>|</div>", "", html)` — delete every
`</div>` and every `<div ...>` reaching the first `'>'`. -/
def removeDivsAux : Nat → List Char → List Char
  | 0, s => s
  | fuel + 1, s =>
    match s with
    | [] => []
    | c :: rest =>
      if startsWith (chars ("</div>")) (c :: rest) then
        removeDivsAux fuel ((c :: rest).drop 6)
      else if startsWith (chars ("<div")) (c :: rest) then
        match findChar '>' ((c :: rest).drop 4) with
        | some k => removeDivsAux fuel ((c :: rest).drop (4 + k + 1))
        | none => c :: removeDivsAux fuel rest
      else c :: removeDivsAux fuel rest

/-- Step 5: remove div tags. -/
def removeDivs (s : List Char) : List Char := removeDivsAux (s.length + 1) s

/-- Step 7: replace each separator-space character by a regular space. -/
def subSeparators (s : List Char) : List Char :=
  s.map (fun c => if isSeparator c then ' ' else c)

/-- Step 8: remove each control/format character. -/
def removeControls (s : List Char) : List Char :=
  s.filter (fun c => !(isControlFmt c))

/-- The fixed block-tag list of `parse_text_with_structure`. -/
def block_tags : List (List Char) :=
  [chars ("h1"), chars ("h2"), chars ("h3"), chars ("h4"), chars ("h5"),
   chars ("h6"), chars ("p"), chars ("ul"), chars ("ol"), chars ("table")]

/-- The fixed whitelist of `parse_text_with_structure`. -/
def keep_tags : List (List Char) :=
  [chars ("h1"), chars ("h2"), chars ("h3"), chars ("h4"), chars ("h5"),
   chars ("h6"), chars ("p"), chars ("ul"), chars ("ol"), chars ("li"),
   chars ("table"), chars ("tr"), chars ("td"), chars ("th")]

/-- `HtmlParser.clean_html(html, block_tags)`: the nine ordered rewrites of
lines 111-135. -/
def clean_html (html : List Char) (bt : List (List Char)) : List Char :=
  squeeze ' '
    (removeControls
      (subSeparators
        (squeeze '\n'
          (removeDivs
            (liNewlines
              (blockNewlines bt
                (trimLines
                  (squeeze '\n' html))))))))

/-! ## StructureReducer: `parse_text_with_structure` (lines 26-90)

The BeautifulSoup tree is modelled as a mutually inductive node/forest pair.
The `find_all(True)` loop (lines 79-83) unwraps every element whose name is
not in `keep_tags` (splicing its children in place, recursively) and clears
the attributes of every kept element; `reduceNode`/`reduceForest` express
this net transformation as a recursive tree rewrite, as the re-parse through
`BeautifulSoup(str(main_div))` re-materializes the same well-formed tree. -/

mutual

/-- A DOM-like HTML node: an element with tag name, attributes and ordered
children, or a text node. -/
inductive HtmlNode where
  | text (s : List Char) : HtmlNode
  | element (name : List Char) (attrs : List (List Char × List Char))
      (children : HtmlForest) : HtmlNode

/-- An ordered sequence of sibling nodes. -/
inductive HtmlForest where
  | nil : HtmlForest
  | cons (n : HtmlNode) (f : HtmlForest) : HtmlForest

end

/-- Concatenation of sibling sequences (used when an unwrapped element's
children are spliced into its former position). -/
def HtmlForest.append : HtmlForest → HtmlForest → HtmlForest
  | .nil, g => g
  | .cons n f, g => .cons n (f.append g)

mutual

/-- The whitelist traversal of lines 79-83 applied at one node: a text node
is kept verbatim; an element in `keep_tags` is kept with all attributes
cleared and its children reduced; any other element is unwrapped: it is
replaced by its reduced children. -/
def reduceNode : HtmlNode → HtmlForest
  | .text s => .cons (.text s) .nil
  | .element nm _attrs cs =>
    if keep_tags.contains nm then .cons (.element nm [] (reduceForest cs)) .nil
    else reduceForest cs

/-- The whitelist traversal applied to a sibling sequence. -/
def reduceForest : HtmlForest → HtmlForest
  | .nil => .nil
  | .cons n f => (reduceNode n).append (reduceForest f)

end

/-- BeautifulSoup's minimal entity escaping of text nodes in `str(soup)`. -/
def escapeText : List Char → List Char
  | [] => []
  | c :: cs =>
    (if c == '&' then chars ("&amp;")
     else if c == '<' then chars ("&lt;")
     else if c == '>' then chars ("&gt;")
     else [c]) ++ escapeText cs

mutual

/-- Serialization `str(soup)` of one node. -/
def serializeNode : HtmlNode → List Char
  | .text s => escapeText s
  | .element nm attrs cs =>
    '<' :: nm ++
      attrs.flatMap (fun a => ' ' :: a.1 ++ chars ("=\"") ++ escapeText a.2 ++ ['"']) ++
      '>' :: serializeForest cs ++ chars ("</") ++ nm ++ ['>']

/-- Serialization of a sibling sequence. -/
def serializeForest : HtmlForest → List Char
  | .nil => []
  | .cons n f => serializeNode n ++ serializeForest f

end

/-- Python `str.strip()`: drop leading and trailing whitespace. -/
def stripPy (s : List Char) : List Char :=
  ((s.dropWhile isPySpace).reverse.dropWhile isPySpace).reverse

/-- The `except` clause of `parse_text_with_structure` (lines 88-90): if the
try block raised an exception described by `e`, log
`"Error in HTML parsing: " ++ e` and raise `HTMLParsingError` with message
`"Failed to process HTML: " ++ e`; otherwise pass the result through.  The
first component is the logger's record, the second the returned value or the
single raised error kind. -/
def parse_text_with_structure_except
    (tryResult : Except (List Char) (List Char)) (log : List (List Char)) :
    List (List Char) × Except (List Char) (List Char) :=
  match tryResult with
  | .ok s => (log, .ok s)
  | .error e =>
    (log ++ [chars ("Error in HTML parsing: ") ++ e],
     .error (chars ("Failed to process HTML: ") ++ e))

/-- The input of `parse_text_with_structure`: `None`, a `NavigableString`,
or a `Tag`. -/
inductive MainDiv where
  | absent : MainDiv
  | navString (s : List Char) : MainDiv
  | element (n : HtmlNode) : MainDiv

/-- `HtmlParser.parse_text_with_structure(main_div)`: `None` gives `""`, a
`NavigableString` is returned verbatim (an empty one is falsy and yields
`""`, which coincides with returning it verbatim); a tag is reduced,
serialized, normalized with `clean_html` and stripped, under the exception
wrapper. -/
def parse_text_with_structure (main_div : MainDiv) :
    List (List Char) × Except (List Char) (List Char) :=
  match main_div with
  | .absent => ([], .ok [])
  | .navString s => ([], .ok s)
  | .element n =>
    parse_text_with_structure_except
      (.ok (stripPy (clean_html (serializeForest (reduceNode n)) block_tags))) []

/-! ## Output predicates -/

mutual

/-- Every element carries a whitelisted name and no attributes. -/
def nodeOK : HtmlNode → Bool
  | .text _ => true
  | .element nm attrs cs => keep_tags.contains nm && attrs.isEmpty && forestOK cs

/-- `nodeOK` over a sibling sequence. -/
def forestOK : HtmlForest → Bool
  | .nil => true
  | .cons n f => nodeOK n && forestOK f

end

/-- No two adjacent occurrences of `t`; the flag records whether the
previous character was `t`. -/
def noDoubleChk (t : Char) : Bool → List Char → Bool
  | _, [] => true
  | prev, c :: cs =>
    if prev && c == t then false else noDoubleChk t (c == t) cs

/-- `s` contains no run of two or more `t`. -/
def noDouble (t : Char) (s : List Char) : Bool := noDoubleChk t false s

/-- Split at newlines. -/
def splitNl : List Char → List (List Char)
  | [] => [[]]
  | c :: cs =>
    match splitNl cs with
    | [] => [[c]]
    | l :: ls => if c == '\n' then [] :: l :: ls else (c :: l) :: ls

/-- A line carries no leading and no trailing whitespace. -/
def lineStripped (l : List Char) : Bool :=
  (match l.head? with
   | none => true
   | some c => !(isPySpace c)) &&
  (match l.getLast? with
   | none => true
   | some c => !(isPySpace c))

/-- The full `NormalizedText` invariant claimed by the specification: no
control/format character, no separator-space character, no run of two or
more spaces, no run of two or more newlines, and no leading or trailing
whitespace on any line. -/
def normalizedTextOk (s : List Char) : Bool :=
  s.all (fun c => !(isControlFmt c)) &&
  s.all (fun c => !(isSeparator c)) &&
  noDouble ' ' s &&
  noDouble '\n' s &&
  (splitNl s).all lineStripped

/-- Every closing tag of a whitelisted block tag is immediately followed by
exactly one newline: checked at every suffix of the string. -/
def blockNlOk : List Char → Bool
  | [] => true
  | c :: rest =>
    (match matchClosing block_tags (c :: rest) with
     | some clen =>
       (match (c :: rest).drop clen with
        | '\n' :: tail =>
          (match tail with
           | '\n' :: _ => false
           | _ => true)
        | _ => false)
     | none => true) && blockNlOk rest

/-- The string position begins a whitelisted attribute-free tag: a literal
`<t>` or `</t>` with `t` in `keep_tags`. -/
def isWhitelistTagHere (s : List Char) : Bool :=
  keep_tags.any (fun t =>
    startsWith ('<' :: (t ++ ['>'])) s ||
    startsWith ('<' :: '/' :: (t ++ ['>'])) s)

/-- String-level whitelist invariant: every occurrence of `'<'` begins a
whitelisted attribute-free tag, so the string contains no other HTML tag
and no tag with attributes. -/
def tagsOk : List Char → Bool
  | [] => true
  | c :: rest =>
    (if c == '<' then isWhitelistTagHere (c :: rest) else true) && tagsOk rest

/-- Grammar of whitelist-clean strings: a sequence of non-`'<'` characters
and complete whitelisted attribute-free opening/closing tags.  This is the
shape of the serialization of a reduced tree, it implies `tagsOk`, and it
is preserved by every rewrite of `clean_html` and by `strip`. -/
inductive WfTags : List Char → Prop where
  | nil : WfTags []
  | chr (c : Char) (rest : List Char) : c ≠ '<' → WfTags rest →
      WfTags (c :: rest)
  | opening (t : List Char) (rest : List Char) : t ∈ keep_tags →
      WfTags rest → WfTags ('<' :: (t ++ '>' :: rest))
  | closing (t : List Char) (rest : List Char) : t ∈ keep_tags →
      WfTags rest → WfTags ('<' :: '/' :: (t ++ '>' :: rest))

/-- A prefix made of whole segments: appending it to any whitelist-clean
string yields a whitelist-clean string. -/
def WfCont (a : List Char) : Prop := ∀ x, WfTags x → WfTags (a ++ x)

/-- Removal of the trailing whitespace run (the recursive form of the
second half of `str.strip()`). -/
def stripEndPy : List Char → List Char
  | [] => []
  | c :: rest =>
    match stripEndPy rest with
    | [] => if isPySpace c then [] else [c]
    | r => c :: r

/-! ## Helper lemmas -/

/-- Collapsing runs only drops characters: every character of the output
occurs in the input. -/
theorem squeezeAux_subset (t : Char) (b : Bool) (s : List Char) (c : Char)
    (h : c ∈ squeezeAux t b s) : c ∈ s := by
  induction s generalizing b with
  | nil => simp [squeezeAux] at h
  | cons d ds ih =>
    by_cases hd : d == t
    · by_cases hb : b
      · subst hb
        simp only [squeezeAux, hd, if_true] at h
        exact List.mem_cons_of_mem d (ih true h)
      · simp only [Bool.not_eq_true] at hb
        subst hb
        simp only [squeezeAux, hd, Bool.false_eq_true, if_true, if_false,
          List.mem_cons] at h
        rcases h with h | h
        · exact h ▸ List.mem_cons_self d ds
        · exact List.mem_cons_of_mem d (ih true h)
    · simp only [squeezeAux, hd, Bool.false_eq_true, if_false, List.mem_cons] at h
      rcases h with h | h
      · exact h ▸ List.mem_cons_self d ds
      · exact List.mem_cons_of_mem d (ih false h)

/-- After collapse with flag `b`, the output satisfies `noDoubleChk` with
the same flag. -/
theorem noDoubleChk_squeezeAux (t : Char) (s : List Char) (b : Bool) :
    noDoubleChk t b (squeezeAux t b s) = true := by
  induction s generalizing b with
  | nil => simp [squeezeAux, noDoubleChk]
  | cons d ds ih =>
    by_cases hd : d == t
    · by_cases hb : b
      · subst hb
        simpa [squeezeAux, hd] using ih true
      · simp only [Bool.not_eq_true] at hb
        subst hb
        simpa [squeezeAux, noDoubleChk, hd] using ih true
    · simp only [squeezeAux, hd, Bool.false_eq_true, if_false]
      simpa [noDoubleChk, hd] using ih false

/-- Collapsing the character `t` over a string not containing `t` is the
identity. -/
theorem squeezeAux_id (t : Char) (b : Bool) (s : List Char)
    (h : ∀ c ∈ s, c ≠ t) : squeezeAux t b s = s := by
  induction s generalizing b with
  | nil => simp [squeezeAux]
  | cons d ds ih =>
    have hd : (d == t) = false :=
      beq_eq_false_iff_ne.mpr (h d (List.mem_cons_self d ds))
    simp [squeezeAux, hd, ih false (fun c hc => h c (List.mem_cons_of_mem d hc))]

/-- The per-line trim only drops characters. -/
theorem trimLinesAux_subset (fuel : Nat) (b : Bool) (s : List Char) (c : Char)
    (h : c ∈ trimLinesAux fuel b s) : c ∈ s := by
  induction fuel generalizing b s with
  | zero => simp only [trimLinesAux] at h; exact h
  | succ fuel ih =>
    match s with
    | [] => simp [trimLinesAux] at h
    | d :: rest =>
      by_cases hd : isPySpace d
      · simp only [trimLinesAux, hd, if_true] at h
        by_cases hb : b
        · subst hb
          simp only [if_true] at h
          exact List.drop_subset _ _ (ih _ _ h)
        · simp only [Bool.not_eq_true] at hb
          subst hb
          simp only [Bool.false_eq_true, if_false] at h
          by_cases hafter : ((d :: rest).drop ((d :: rest).takeWhile isPySpace).length).isEmpty
          · simp [hafter] at h
          · simp only [hafter, Bool.false_eq_true, if_false] at h
            cases hlast : lastNlOffset ((d :: rest).takeWhile isPySpace) with
            | some j =>
              simp only [hlast] at h
              exact List.drop_subset _ _ (ih _ _ h)
            | none =>
              simp only [hlast, List.mem_cons] at h
              rcases h with h | h
              · exact h ▸ List.mem_cons_self d rest
              · exact List.mem_cons_of_mem d (ih _ _ h)
      · simp only [trimLinesAux, hd, Bool.false_eq_true, if_false,
          List.mem_cons] at h
        rcases h with h | h
        · exact h ▸ List.mem_cons_self d rest
        · exact List.mem_cons_of_mem d (ih _ _ h)

/-- A pattern whose first character differs from the string's first
character does not match. -/
theorem startsWith_cons_false (p : Char) (ps : List Char) (c : Char)
    (cs : List Char) (h : (p == c) = false) :
    startsWith (p :: ps) (c :: cs) = false := by
  simp [startsWith, h]

/-- The step-3 pattern requires a literal `'<'` at the match position. -/
theorem matchBlockAt_eq_none (tags : List (List Char)) (c : Char)
    (rest : List Char) (h : (c == '<') = false) :
    matchBlockAt tags (c :: rest) = none := by
  simp [matchBlockAt, h]

/-- Step 3 is the identity on strings that contain no `'<'`. -/
theorem blockNewlinesAux_id (tags : List (List Char)) (fuel : Nat)
    (s : List Char) (h : ∀ c ∈ s, c ≠ '<') :
    blockNewlinesAux tags fuel s = s := by
  induction fuel generalizing s with
  | zero => rfl
  | succ fuel ih =>
    match s with
    | [] => rfl
    | c :: rest =>
      have hc : (c == '<') = false :=
        beq_eq_false_iff_ne.mpr (h c (List.mem_cons_self c rest))
      rw [blockNewlinesAux, matchBlockAt_eq_none tags c rest hc,
        ih rest (fun d hd => h d (List.mem_cons_of_mem c hd))]

/-- The step-4 pattern requires a literal `'<'` at the match position. -/
theorem matchLiAt_eq_none (c : Char) (rest : List Char)
    (h : (c == '<') = false) : matchLiAt (c :: rest) = none := by
  have hlit : chars ("<li>") = '<' :: 'l' :: 'i' :: '>' :: [] := rfl
  rw [matchLiAt, hlit, startsWith_cons_false _ _ _ _
    (by rw [beq_eq_false_iff_ne] at h ⊢; exact fun hx => h hx.symm)]
  rfl

/-- Step 4 is the identity on strings that contain no `'<'`. -/
theorem liNewlinesAux_id (fuel : Nat) (s : List Char)
    (h : ∀ c ∈ s, c ≠ '<') : liNewlinesAux fuel s = s := by
  induction fuel generalizing s with
  | zero => rfl
  | succ fuel ih =>
    match s with
    | [] => rfl
    | c :: rest =>
      have hc : (c == '<') = false :=
        beq_eq_false_iff_ne.mpr (h c (List.mem_cons_self c rest))
      rw [liNewlinesAux, matchLiAt_eq_none c rest hc,
        ih rest (fun d hd => h d (List.mem_cons_of_mem c hd))]

/-- Step 5 is the identity on strings that contain no `'<'`. -/
theorem removeDivsAux_id (fuel : Nat) (s : List Char)
    (h : ∀ c ∈ s, c ≠ '<') : removeDivsAux fuel s = s := by
  induction fuel generalizing s with
  | zero => rfl
  | succ fuel ih =>
    match s with
    | [] => rfl
    | c :: rest =>
      have hc : ('<' == c) = false :=
        beq_eq_false_iff_ne.mpr
          (fun hx => h c (List.mem_cons_self c rest) hx.symm)
      have h1 : startsWith (chars ("</div>")) (c :: rest) = false := by
        have : chars ("</div>") = '<' :: '/' :: 'd' :: 'i' :: 'v' :: '>' :: [] := rfl
        rw [this, startsWith_cons_false _ _ _ _ hc]
      have h2 : startsWith (chars ("<div")) (c :: rest) = false := by
        have : chars ("<div") = '<' :: 'd' :: 'i' :: 'v' :: [] := rfl
        rw [this, startsWith_cons_false _ _ _ _ hc]
      rw [removeDivsAux, h1, h2]
      simp only [Bool.false_eq_true, if_false]
      rw [ih rest (fun d hd => h d (List.mem_cons_of_mem c hd))]

/-- Each character of `subSeparators s` is a non-separator. -/
theorem subSeparators_not_sep (s : List Char) (c : Char)
    (h : c ∈ subSeparators s) : isSeparator c = false := by
  rw [subSeparators] at h
  obtain ⟨x, _, rfl⟩ := List.mem_map.mp h
  by_cases hx : isSeparator x
  · simp only [hx, if_true]
    decide
  · simp only [Bool.not_eq_true] at hx
    simp [hx]

/-- Characters surviving step 8 are non-control. -/
theorem removeControls_not_ctl (s : List Char) (c : Char)
    (h : c ∈ removeControls s) : isControlFmt c = false := by
  have := List.of_mem_filter h
  simpa using this

/-- Step 8 only drops characters. -/
theorem removeControls_subset (s : List Char) (c : Char)
    (h : c ∈ removeControls s) : c ∈ s :=
  List.mem_of_mem_filter h

/-- Space-collapsing a string of spaces with the flag set gives nothing. -/
theorem squeezeAux_true_all_space (u : List Char) (h : ∀ c ∈ u, c = ' ') :
    squeezeAux ' ' true u = [] := by
  induction u with
  | nil => rfl
  | cons d ds ih =>
    have hd : (d == ' ') = true := beq_iff_eq.mpr (h d (List.mem_cons_self d ds))
    simp only [squeezeAux, hd, if_true]
    exact ih (fun c hc => h c (List.mem_cons_of_mem d hc))

/-- Space-collapsing a string of spaces yields nothing or one space. -/
theorem squeeze_space_all (u : List Char) (h : ∀ c ∈ u, c = ' ') :
    squeeze ' ' u = [] ∨ squeeze ' ' u = [' '] := by
  match u with
  | [] => exact Or.inl rfl
  | d :: ds =>
    have hd : d = ' ' := h d (List.mem_cons_self d ds)
    subst hd
    right
    rw [squeeze]
    simp only [squeezeAux, beq_self_eq_true, if_true, Bool.false_eq_true, if_false]
    rw [squeezeAux_true_all_space ds (fun c hc => h c (List.mem_cons_of_mem _ hc))]

/-- `forestOK` distributes over forest concatenation. -/
theorem forestOK_append : ∀ f g : HtmlForest,
    forestOK (f.append g) = (forestOK f && forestOK g)
  | .nil, g => by simp [HtmlForest.append, forestOK]
  | .cons n f, g => by
    simp [HtmlForest.append, forestOK, forestOK_append f g, Bool.and_assoc]

mutual

/-- Every element in the reduction of a node is whitelisted and
attribute-free. -/
theorem reduceNode_whitelisted : ∀ n : HtmlNode, forestOK (reduceNode n) = true
  | .text s => by simp [reduceNode, forestOK, nodeOK]
  | .element nm attrs cs => by
    by_cases h : nm ∈ keep_tags
    · simp [reduceNode, h, forestOK, nodeOK, reduceForest_whitelisted cs]
    · simp [reduceNode, h, reduceForest_whitelisted cs]

/-- Every element in the reduction of a forest is whitelisted and
attribute-free. -/
theorem reduceForest_whitelisted : ∀ f : HtmlForest,
    forestOK (reduceForest f) = true
  | .nil => by simp [reduceForest, forestOK]
  | .cons n f => by
    rw [reduceForest, forestOK_append, reduceNode_whitelisted n,
      reduceForest_whitelisted f]
    rfl

end

/-- End-to-end check of the tree model against the repository's own test
`test_unwraps_non_keep_tags`: `<div class="x"><span>Keep this text</span></div>`
reduces to the bare text. -/
theorem parse_unwraps_non_keep_tags :
    parse_text_with_structure
      (.element (.element (chars ("div")) [(chars ("class"), chars ("x"))]
        (.cons (.element (chars ("span")) []
          (.cons (.text (chars ("Keep this text"))) .nil)) .nil))) =
      ([], .ok (chars ("Keep this text"))) := by rfl

/-- End-to-end check against the repository's own test
`test_strips_tag_attributes`: `<p class="important">Text</p>` keeps the tag
but loses the attribute. -/
theorem parse_strips_tag_attributes :
    parse_text_with_structure
      (.element (.element (chars ("p")) [(chars ("class"), chars ("important"))]
        (.cons (.text (chars ("Text"))) .nil))) =
      ([], .ok (chars ("<p>Text</p>"))) := by rfl

/-! ## Whitelist invariant at the string level (C6) -/

theorem keep_tags_eq :
    keep_tags = [['h','1'],['h','2'],['h','3'],['h','4'],['h','5'],['h','6'],
      ['p'],['u','l'],['o','l'],['l','i'],['t','a','b','l','e'],['t','r'],
      ['t','d'],['t','h']] := rfl

theorem block_tags_eq :
    block_tags = [['h','1'],['h','2'],['h','3'],['h','4'],['h','5'],['h','6'],
      ['p'],['u','l'],['o','l'],['t','a','b','l','e']] := rfl

/-- Characters of whitelisted tag names avoid every delimiter and every
whitespace/separator/control class used by the rewrites. -/
theorem keep_tags_chars : ∀ t ∈ keep_tags, t ≠ [] ∧ ∀ c ∈ t,
    c ≠ '<' ∧ c ≠ '>' ∧ c ≠ '/' ∧ isPySpace c = false ∧
    isSeparator c = false ∧ isControlFmt c = false := by decide

/-- A non-whitespace character is neither a newline nor a space. -/
theorem ne_nl_sp_of_not_pyspace (c : Char) (h : isPySpace c = false) :
    c ≠ '\n' ∧ c ≠ ' ' := by
  constructor <;> rintro rfl <;> simp [isPySpace] at h

/-- Characters of a closing-tag remainder `t ++ ['>']`. -/
theorem tag_body_chars (t : List Char) (ht : t ∈ keep_tags) :
    ∀ c ∈ t ++ ['>'], c ≠ '<' ∧ isPySpace c = false := by
  intro c hc
  rcases List.mem_append.mp hc with hc | hc
  · have := (keep_tags_chars t ht).2 c hc
    exact ⟨this.1, this.2.2.2.1⟩
  · simp only [List.mem_singleton] at hc
    subst hc
    exact ⟨by decide, by decide⟩

/-- Characters of a closing-tag remainder `'/' :: t ++ ['>']`. -/
theorem tag_body_chars_close (t : List Char) (ht : t ∈ keep_tags) :
    ∀ c ∈ '/' :: (t ++ ['>']), c ≠ '<' ∧ isPySpace c = false := by
  intro c hc
  rcases List.mem_cons.mp hc with hc | hc
  · subst hc
    exact ⟨by decide, by decide⟩
  · exact tag_body_chars t ht c hc

theorem wfCont_nil : WfCont [] := fun _ hx => hx

theorem wfCont_chr (c : Char) (a : List Char) (hc : c ≠ '<')
    (h : WfCont a) : WfCont (c :: a) :=
  fun x hx => WfTags.chr c _ hc (h x hx)

theorem wfCont_no_lt (a : List Char) (h : ∀ c ∈ a, c ≠ '<') : WfCont a := by
  induction a with
  | nil => exact wfCont_nil
  | cons c a ih =>
    exact wfCont_chr c a (h c (List.mem_cons_self c a))
      (ih (fun d hd => h d (List.mem_cons_of_mem c hd)))

theorem wfCont_opening (t : List Char) (a : List Char) (ht : t ∈ keep_tags)
    (h : WfCont a) : WfCont ('<' :: (t ++ '>' :: a)) := by
  intro x hx
  have h2 := WfTags.opening t (a ++ x) ht (h x hx)
  have e : ('<' :: (t ++ '>' :: a)) ++ x = '<' :: (t ++ '>' :: (a ++ x)) := by
    simp
  rw [e]
  exact h2

theorem wfCont_closing (t : List Char) (a : List Char) (ht : t ∈ keep_tags)
    (h : WfCont a) : WfCont ('<' :: '/' :: (t ++ '>' :: a)) := by
  intro x hx
  have h2 := WfTags.closing t (a ++ x) ht (h x hx)
  have e : ('<' :: '/' :: (t ++ '>' :: a)) ++ x =
      '<' :: '/' :: (t ++ '>' :: (a ++ x)) := by simp
  rw [e]
  exact h2

theorem wfCont_wfTags (a : List Char) (h : WfCont a) : WfTags a := by
  have := h [] WfTags.nil
  simpa using this

/-- A string is whitelist-clean iff it is a whole-segment continuation. -/
theorem wfTags_wfCont (s : List Char) (h : WfTags s) : WfCont s := by
  induction h with
  | nil => exact wfCont_nil
  | chr c rest hc _ ih => exact wfCont_chr c rest hc ih
  | opening t rest ht _ ih => exact wfCont_opening t rest ht ih
  | closing t rest ht _ ih => exact wfCont_closing t rest ht ih

theorem startsWith_self_append (p x : List Char) :
    startsWith p (p ++ x) = true := by
  induction p with
  | nil => rfl
  | cons c p ih => simp [startsWith, ih]

theorem tagsOk_append_no_lt (a x : List Char) (h : ∀ c ∈ a, c ≠ '<')
    (hx : tagsOk x = true) : tagsOk (a ++ x) = true := by
  induction a with
  | nil => exact hx
  | cons c a ih =>
    have hc : (c == '<') = false :=
      beq_eq_false_iff_ne.mpr (h c (List.mem_cons_self c a))
    simp only [List.cons_append, tagsOk, hc, Bool.false_eq_true, if_false,
      Bool.true_and]
    exact ih (fun d hd => h d (List.mem_cons_of_mem c hd))

/-- Every string generated by the whitelist grammar satisfies the decidable
string-level whitelist invariant. -/
theorem wfTags_tagsOk (s : List Char) (h : WfTags s) : tagsOk s = true := by
  induction h with
  | nil => rfl
  | chr c rest hc _ ih =>
    have hc2 : (c == '<') = false := beq_eq_false_iff_ne.mpr hc
    simp [tagsOk, hc2, ih]
  | opening t rest ht _ ih =>
    have hwl : isWhitelistTagHere ('<' :: (t ++ '>' :: rest)) = true := by
      rw [isWhitelistTagHere, List.any_eq_true]
      refine ⟨t, ht, ?_⟩
      have e : '<' :: (t ++ '>' :: rest) = ('<' :: (t ++ ['>'])) ++ rest := by
        simp
      rw [e, startsWith_self_append]
      rfl
    have unfold1 : tagsOk ('<' :: (t ++ '>' :: rest)) =
        ((if ('<' : Char) == '<' then isWhitelistTagHere ('<' :: (t ++ '>' :: rest))
          else true) && tagsOk (t ++ '>' :: rest)) := rfl
    have e2 : t ++ '>' :: rest = (t ++ ['>']) ++ rest := by simp
    rw [unfold1, hwl, e2,
      tagsOk_append_no_lt _ _ (fun c hc => (tag_body_chars t ht c hc).1) ih]
    rfl
  | closing t rest ht _ ih =>
    have hwl : isWhitelistTagHere ('<' :: '/' :: (t ++ '>' :: rest)) = true := by
      rw [isWhitelistTagHere, List.any_eq_true]
      refine ⟨t, ht, ?_⟩
      have e : '<' :: '/' :: (t ++ '>' :: rest) =
          ('<' :: '/' :: (t ++ ['>'])) ++ rest := by simp
      rw [e, startsWith_self_append, Bool.or_true]
    have unfold1 : tagsOk ('<' :: '/' :: (t ++ '>' :: rest)) =
        ((if ('<' : Char) == '<' then
            isWhitelistTagHere ('<' :: '/' :: (t ++ '>' :: rest))
          else true) && tagsOk ('/' :: (t ++ '>' :: rest))) := rfl
    have unfold2 : tagsOk ('/' :: (t ++ '>' :: rest)) =
        ((if ('/' : Char) == '<' then
            isWhitelistTagHere ('/' :: (t ++ '>' :: rest))
          else true) && tagsOk (t ++ '>' :: rest)) := rfl
    have e2 : t ++ '>' :: rest = (t ++ ['>']) ++ rest := by simp
    rw [unfold1, hwl, unfold2, e2,
      tagsOk_append_no_lt _ _ (fun c hc => (tag_body_chars t ht c hc).1) ih]
    rfl

/-- One step of the collapse at a character different from the collapsed
one. -/
theorem squeezeAux_cons_ne (tch c : Char) (b : Bool) (z : List Char)
    (hc : (c == tch) = false) :
    squeezeAux tch b (c :: z) = c :: squeezeAux tch false z := by
  simp [squeezeAux, hc]

/-- Pushing a run-collapse through a block of characters distinct from the
collapsed character. -/
theorem squeezeAux_push (tch : Char) :
    ∀ (a : List Char), a ≠ [] → (∀ c ∈ a, (c == tch) = false) →
      ∀ (b : Bool) (x : List Char),
      squeezeAux tch b (a ++ x) = a ++ squeezeAux tch false x
  | [], hne, _, _, _ => absurd rfl hne
  | [c], _, h, b, x => by
    have hc := h c (List.mem_cons_self c [])
    exact squeezeAux_cons_ne tch c b x hc
  | c :: c2 :: a', _, h, b, x => by
    have hc := h c (List.mem_cons_self c (c2 :: a'))
    have ih := squeezeAux_push tch (c2 :: a') (by simp)
      (fun d hd => h d (List.mem_cons_of_mem c hd)) false x
    show squeezeAux tch b (c :: ((c2 :: a') ++ x)) =
      c :: ((c2 :: a') ++ squeezeAux tch false x)
    rw [squeezeAux_cons_ne tch c b _ hc, ih]

/-- Collapsing runs of a whitespace character preserves whitelist-clean
strings. -/
theorem squeeze_preserves_wf (tch : Char) (htch : isPySpace tch = true) :
    ∀ s, WfTags s → ∀ b, WfTags (squeezeAux tch b s) := by
  intro s h
  have hlt : (('<' : Char) == tch) = false := by
    rw [beq_eq_false_iff_ne]
    rintro rfl
    exact absurd htch (by decide)
  induction h with
  | nil => intro b; exact WfTags.nil
  | chr c rest hc _ ih =>
    intro b
    by_cases hct : (c == tch) = true
    · by_cases hb : b
      · subst hb
        simpa [squeezeAux, hct] using ih true
      · simp only [Bool.not_eq_true] at hb
        subst hb
        simp only [squeezeAux, hct, if_true, Bool.false_eq_true, if_false]
        exact WfTags.chr c _ hc (ih true)
    · simp only [Bool.not_eq_true] at hct
      simp only [squeezeAux, hct, Bool.false_eq_true, if_false]
      exact WfTags.chr c _ hc (ih false)
  | opening t rest ht _ ih =>
    intro b
    have hpush := squeezeAux_push tch (t ++ ['>']) (by simp)
      (fun c hc => by
        rw [beq_eq_false_iff_ne]
        rintro rfl
        exact absurd htch (by simp [(tag_body_chars t ht c hc).2])) false rest
    have e : t ++ '>' :: rest = (t ++ ['>']) ++ rest := by simp
    simp only [squeezeAux, hlt, Bool.false_eq_true, if_false, e, hpush]
    have e2 : (t ++ ['>']) ++ squeezeAux tch false rest =
        t ++ '>' :: squeezeAux tch false rest := by simp
    rw [e2]
    exact WfTags.opening t _ ht (ih false)
  | closing t rest ht _ ih =>
    intro b
    have hsl : (('/' : Char) == tch) = false := by
      rw [beq_eq_false_iff_ne]
      rintro rfl
      exact absurd htch (by decide)
    have hpush := squeezeAux_push tch (t ++ ['>']) (by simp)
      (fun c hc => by
        rw [beq_eq_false_iff_ne]
        rintro rfl
        exact absurd htch (by simp [(tag_body_chars t ht c hc).2])) false rest
    have e : t ++ '>' :: rest = (t ++ ['>']) ++ rest := by simp
    simp only [squeezeAux, hlt, hsl, Bool.false_eq_true, if_false, e, hpush]
    have e2 : (t ++ ['>']) ++ squeezeAux tch false rest =
        t ++ '>' :: squeezeAux tch false rest := by simp
    rw [e2]
    exact WfTags.closing t _ ht (ih false)

/-- Mapping a function that fixes every element of `a`. -/
theorem map_id_on (f : Char → Char) :
    ∀ a : List Char, (∀ c ∈ a, f c = c) → a.map f = a
  | [], _ => rfl
  | c :: a, h => by
    rw [List.map_cons, h c (List.mem_cons_self c a),
      map_id_on f a (fun d hd => h d (List.mem_cons_of_mem c hd))]

/-- Step 7 preserves whitelist-clean strings: tag characters are not
separator spaces, and a replacement space is not `'<'`. -/
theorem subSeparators_preserves_wf :
    ∀ s, WfTags s → WfTags (subSeparators s) := by
  intro s h
  induction h with
  | nil => exact WfTags.nil
  | chr c rest hc _ ih =>
    rw [subSeparators, List.map_cons]
    refine WfTags.chr _ _ ?_ ih
    by_cases hs : isSeparator c
    · simp [hs]
    · simp only [Bool.not_eq_true] at hs
      simp [hs, hc]
  | opening t rest ht _ ih =>
    rw [subSeparators, List.map_cons]
    have e : t ++ '>' :: rest = (t ++ ['>']) ++ rest := by simp
    rw [e, List.map_append]
    have et : List.map (fun c => if isSeparator c then ' ' else c) (t ++ ['>']) =
        t ++ ['>'] := by
      refine map_id_on _ _ (fun c hc => ?_)
      simp [show isSeparator c = false from by
        rcases List.mem_append.mp hc with hc | hc
        · exact (keep_tags_chars t ht).2 c hc |>.2.2.2.2.1
        · simp only [List.mem_singleton] at hc; subst hc; decide]
    rw [et, show (if isSeparator '<' then ' ' else '<') = '<' from by decide]
    have e2 : (t ++ ['>']) ++ List.map (fun c => if isSeparator c then ' ' else c) rest =
        t ++ '>' :: subSeparators rest := by simp [subSeparators]
    rw [e2]
    exact WfTags.opening t _ ht ih
  | closing t rest ht _ ih =>
    rw [subSeparators, List.map_cons, List.map_cons]
    have e : t ++ '>' :: rest = (t ++ ['>']) ++ rest := by simp
    rw [e, List.map_append]
    have et : List.map (fun c => if isSeparator c then ' ' else c) (t ++ ['>']) =
        t ++ ['>'] := by
      refine map_id_on _ _ (fun c hc => ?_)
      simp [show isSeparator c = false from by
        rcases List.mem_append.mp hc with hc | hc
        · exact (keep_tags_chars t ht).2 c hc |>.2.2.2.2.1
        · simp only [List.mem_singleton] at hc; subst hc; decide]
    rw [et, show (if isSeparator '<' then ' ' else '<') = '<' from by decide,
      show (if isSeparator '/' then ' ' else '/') = '/' from by decide]
    have e2 : (t ++ ['>']) ++ List.map (fun c => if isSeparator c then ' ' else c) rest =
        t ++ '>' :: subSeparators rest := by simp [subSeparators]
    rw [e2]
    exact WfTags.closing t _ ht ih

/-- Filtering with a predicate every element of `a` passes. -/
theorem filter_id_on (p : Char → Bool) :
    ∀ (a x : List Char), (∀ c ∈ a, p c = true) →
      List.filter p (a ++ x) = a ++ List.filter p x
  | [], _, _ => rfl
  | c :: a, x, h => by
    rw [List.cons_append, List.filter_cons,
      filter_id_on p a x (fun d hd => h d (List.mem_cons_of_mem c hd))]
    simp [h c (List.mem_cons_self c a)]

/-- Step 8 preserves whitelist-clean strings: tag characters are not
control/format characters, and removal keeps segments intact. -/
theorem removeControls_preserves_wf :
    ∀ s, WfTags s → WfTags (removeControls s) := by
  intro s h
  induction h with
  | nil => exact WfTags.nil
  | chr c rest hc _ ih =>
    rw [removeControls, List.filter_cons]
    by_cases hcc : isControlFmt c
    · simp only [hcc, Bool.not_true, Bool.false_eq_true, if_false]
      exact ih
    · simp only [Bool.not_eq_true] at hcc
      simp only [hcc, Bool.not_false, if_true]
      exact WfTags.chr c _ hc ih
  | opening t rest ht _ ih =>
    rw [removeControls, List.filter_cons]
    have e : t ++ '>' :: rest = (t ++ ['>']) ++ rest := by simp
    rw [show (!isControlFmt '<') = true from by decide, if_pos rfl, e,
      filter_id_on _ (t ++ ['>']) rest (fun c hc => by
        rcases List.mem_append.mp hc with hc | hc
        · simp [(keep_tags_chars t ht).2 c hc |>.2.2.2.2.2]
        · simp only [List.mem_singleton] at hc; subst hc; decide)]
    have e2 : (t ++ ['>']) ++ List.filter (fun c => !isControlFmt c) rest =
        t ++ '>' :: removeControls rest := by simp [removeControls]
    rw [e2]
    exact WfTags.opening t _ ht ih
  | closing t rest ht _ ih =>
    rw [removeControls, List.filter_cons, List.filter_cons]
    have e : t ++ '>' :: rest = (t ++ ['>']) ++ rest := by simp
    rw [show (!isControlFmt '<') = true from by decide, if_pos rfl,
      show (!isControlFmt '/') = true from by decide, if_pos rfl, e,
      filter_id_on _ (t ++ ['>']) rest (fun c hc => by
        rcases List.mem_append.mp hc with hc | hc
        · simp [(keep_tags_chars t ht).2 c hc |>.2.2.2.2.2]
        · simp only [List.mem_singleton] at hc; subst hc; decide)]
    have e2 : (t ++ ['>']) ++ List.filter (fun c => !isControlFmt c) rest =
        t ++ '>' :: removeControls rest := by simp [removeControls]
    rw [e2]
    exact WfTags.closing t _ ht ih

theorem findLastNl_lt_length :
    ∀ l : List Char, ∀ j, findLastNl l = some j → j < l.length := by
  intro l
  induction l with
  | nil => intro j h; simp [findLastNl] at h
  | cons c cs ih =>
    intro j h
    rw [findLastNl] at h
    cases hf : findLastNl cs with
    | some j2 =>
      rw [hf] at h
      cases h
      exact Nat.succ_lt_succ (ih j2 hf)
    | none =>
      rw [hf] at h
      by_cases hc : (c == '\n') = true
      · simp only [hc, if_true] at h
        cases h
        simp
      · simp only [Bool.not_eq_true] at hc
        simp [hc] at h

theorem lastNlOffset_bounds (l : List Char) (j : Nat)
    (h : lastNlOffset l = some j) : 1 ≤ j ∧ j < l.length := by
  match l with
  | [] => simp [lastNlOffset] at h
  | c :: tail =>
    rw [lastNlOffset] at h
    cases hf : findLastNl tail with
    | some j2 =>
      rw [hf] at h
      have hj : j = j2 + 1 := by simpa using h.symm
      subst hj
      exact ⟨Nat.le_add_left 1 j2, by
        simpa using Nat.succ_lt_succ (findLastNl_lt_length tail j2 hf)⟩
    | none => rw [hf] at h; simp at h

theorem take_pyspace_of_le_takeWhile :
    ∀ (l : List Char) (j : Nat), j ≤ (l.takeWhile isPySpace).length →
      ∀ c ∈ l.take j, isPySpace c = true
  | _, 0, _, c, hc => by simp at hc
  | [], _ + 1, _, c, hc => by simp at hc
  | d :: l, j + 1, hj, c, hc => by
    by_cases hd : isPySpace d
    · rw [List.takeWhile_cons, if_pos hd] at hj
      rw [List.take_succ_cons] at hc
      rcases List.mem_cons.mp hc with hc | hc
      · exact hc ▸ hd
      · exact take_pyspace_of_le_takeWhile l j (Nat.le_of_succ_le_succ hj) c hc
    · rw [List.takeWhile_cons, if_neg hd] at hj
      simp at hj

theorem wfTags_cons_inv (c : Char) (rest : List Char)
    (h : WfTags (c :: rest)) (hc : c ≠ '<') : WfTags rest := by
  cases h with
  | chr _ _ _ hr => exact hr
  | opening t rest2 ht hr => exact absurd rfl hc
  | closing t rest2 ht hr => exact absurd rfl hc

theorem wfTags_drop_pyspace :
    ∀ (j : Nat) (l : List Char), WfTags l →
      (∀ c ∈ l.take j, isPySpace c = true) → WfTags (l.drop j) := by
  intro j
  induction j with
  | zero => intro l h _; exact h
  | succ j ih =>
    intro l h htake
    match l with
    | [] => exact WfTags.nil
    | c :: rest =>
      have hc : isPySpace c = true :=
        htake c (by simp [List.take_succ_cons])
      have hne : c ≠ '<' := by
        rintro rfl
        exact absurd hc (by decide)
      rw [List.drop_succ_cons]
      exact ih rest (wfTags_cons_inv c rest h hne)
        (fun d hd => htake d (by simp [List.take_succ_cons, hd]))

/-- Unfolding the per-line trim at a non-whitespace character. -/
theorem trimLinesAux_cons_not_space (f : Nat) (b : Bool) (c : Char)
    (z : List Char) (h : isPySpace c = false) :
    trimLinesAux (f + 1) b (c :: z) = c :: trimLinesAux f (c == '\n') z := by
  simp [trimLinesAux, h]

/-- Pushing the per-line trim through a block of non-whitespace characters:
some amount of fuel remains and the trim continues after the block at a
non-line-start position. -/
theorem trimLinesAux_push :
    ∀ (a : List Char), a ≠ [] → (∀ c ∈ a, isPySpace c = false) →
      ∀ (fuel : Nat) (b : Bool) (x : List Char),
      ∃ g, g ≤ fuel ∧
        trimLinesAux fuel b (a ++ x) = a ++ trimLinesAux g false x
  | [], hne, _, _, _, _ => absurd rfl hne
  | [c], _, h, fuel, b, x => by
    have hc := h c (List.mem_cons_self c [])
    have hnl : (c == '\n') = false :=
      beq_eq_false_iff_ne.mpr (ne_nl_sp_of_not_pyspace c hc).1
    match fuel with
    | 0 => exact ⟨0, Nat.le_refl 0, rfl⟩
    | f + 1 =>
      refine ⟨f, Nat.le_succ f, ?_⟩
      show trimLinesAux (f + 1) b (c :: x) = c :: trimLinesAux f false x
      rw [trimLinesAux_cons_not_space f b c x hc, hnl]
  | c :: c2 :: a', _, h, fuel, b, x => by
    have hc := h c (List.mem_cons_self c (c2 :: a'))
    have hnl : (c == '\n') = false :=
      beq_eq_false_iff_ne.mpr (ne_nl_sp_of_not_pyspace c hc).1
    match fuel with
    | 0 => exact ⟨0, Nat.le_refl 0, rfl⟩
    | f + 1 =>
      obtain ⟨g, hg, he⟩ := trimLinesAux_push (c2 :: a') (by simp)
        (fun d hd => h d (List.mem_cons_of_mem c hd)) f (c == '\n') x
      refine ⟨g, Nat.le_trans hg (Nat.le_succ f), ?_⟩
      show trimLinesAux (f + 1) b (c :: ((c2 :: a') ++ x)) =
        c :: ((c2 :: a') ++ trimLinesAux g false x)
      rw [trimLinesAux_cons_not_space f b c _ hc, he]

/-- The per-line trim preserves whitelist-clean strings: it deletes only
whitespace characters, and no whitespace occurs inside a tag. -/
theorem trimLinesAux_preserves_wf :
    ∀ (fuel : Nat) (b : Bool) (s : List Char), WfTags s →
      WfTags (trimLinesAux fuel b s) := by
  intro fuel
  induction fuel using Nat.strong_induction_on with
  | _ fuel IH =>
    match fuel with
    | 0 => intro b s h; exact h
    | f + 1 =>
      intro b s h
      match s with
      | [] => exact WfTags.nil
      | c :: rest =>
        by_cases hps : isPySpace c
        · have hrun := take_pyspace_of_le_takeWhile (c :: rest)
            ((c :: rest).takeWhile isPySpace).length (Nat.le_refl _)
          simp only [trimLinesAux, hps, if_true]
          by_cases hb : b
          · subst hb
            simp only [if_true]
            exact IH f (Nat.lt_succ_self f) _ _
              (wfTags_drop_pyspace _ _ h hrun)
          · simp only [Bool.not_eq_true] at hb
            subst hb
            simp only [Bool.false_eq_true, if_false]
            by_cases hae :
                ((c :: rest).drop ((c :: rest).takeWhile isPySpace).length).isEmpty
            · simp only [hae, if_true]
              exact WfTags.nil
            · simp only [hae, Bool.false_eq_true, if_false]
              cases hlo : lastNlOffset ((c :: rest).takeWhile isPySpace) with
              | some j =>
                have hbd := lastNlOffset_bounds _ _ hlo
                exact IH f (Nat.lt_succ_self f) _ _
                  (wfTags_drop_pyspace j _ h
                    (take_pyspace_of_le_takeWhile (c :: rest) j
                      (Nat.le_of_lt hbd.2)))
              | none =>
                have hne : c ≠ '<' := by
                  rintro rfl
                  exact absurd hps (by decide)
                exact WfTags.chr c _ hne
                  (IH f (Nat.lt_succ_self f) _ _ (wfTags_cons_inv c rest h hne))
        · simp only [Bool.not_eq_true] at hps
          cases h with
          | chr _ _ hc hrest =>
            rw [trimLinesAux_cons_not_space f b c rest hps]
            exact WfTags.chr c _ hc (IH f (Nat.lt_succ_self f) _ _ hrest)
          | opening t rest2 ht hrest =>
            rw [trimLinesAux_cons_not_space f b '<' _ (by decide),
              show (('<' : Char) == '\n') = false from by decide]
            have e : t ++ '>' :: rest2 = (t ++ ['>']) ++ rest2 := by simp
            rw [e]
            obtain ⟨g, hg, he⟩ := trimLinesAux_push (t ++ ['>']) (by simp)
              (fun d hd => (tag_body_chars t ht d hd).2) f false rest2
            rw [he]
            have e2 : (t ++ ['>']) ++ trimLinesAux g false rest2 =
                t ++ '>' :: trimLinesAux g false rest2 := by simp
            rw [e2]
            exact WfTags.opening t _ ht
              (IH g (Nat.lt_succ_of_le hg) _ _ hrest)
          | closing t rest2 ht hrest =>
            rw [trimLinesAux_cons_not_space f b '<' _ (by decide),
              show (('<' : Char) == '\n') = false from by decide]
            have e : '/' :: (t ++ '>' :: rest2) = ('/' :: (t ++ ['>'])) ++ rest2 := by
              simp
            rw [e]
            obtain ⟨g, hg, he⟩ := trimLinesAux_push ('/' :: (t ++ ['>'])) (by simp)
              (fun d hd => (tag_body_chars_close t ht d hd).2) f false rest2
            rw [he]
            have e2 : ('/' :: (t ++ ['>'])) ++ trimLinesAux g false rest2 =
                '/' :: (t ++ '>' :: trimLinesAux g false rest2) := by simp
            rw [e2]
            exact WfTags.closing t _ ht
              (IH g (Nat.lt_succ_of_le hg) _ _ hrest)

/-- No whitelisted tag name begins with `'d'` or `'/'`. -/
theorem keep_tags_head :
    ∀ t ∈ keep_tags, t.head? ≠ some 'd' ∧ t.head? ≠ some '/' := by decide

/-- Unfolding of the div scanner when neither div pattern matches. -/
theorem removeDivsAux_cons_no_div (f : Nat) (c : Char) (z : List Char)
    (h1 : startsWith (chars ("</div>")) (c :: z) = false)
    (h2 : startsWith (chars ("<div")) (c :: z) = false) :
    removeDivsAux (f + 1) (c :: z) = c :: removeDivsAux f z := by
  simp [removeDivsAux, h1, h2]

/-- Pushing the div scanner through a block of non-`'<'` characters. -/
theorem removeDivsAux_push :
    ∀ (a : List Char), a ≠ [] → (∀ c ∈ a, c ≠ '<') →
      ∀ (fuel : Nat) (x : List Char),
      ∃ g, g ≤ fuel ∧ removeDivsAux fuel (a ++ x) = a ++ removeDivsAux g x
  | [], hne, _, _, _ => absurd rfl hne
  | [c], _, h, fuel, x => by
    have hc : ('<' == c) = false :=
      beq_eq_false_iff_ne.mpr (fun he => h c (List.mem_cons_self c []) he.symm)
    match fuel with
    | 0 => exact ⟨0, Nat.le_refl 0, rfl⟩
    | f + 1 =>
      refine ⟨f, Nat.le_succ f, ?_⟩
      show removeDivsAux (f + 1) (c :: x) = c :: removeDivsAux f x
      exact removeDivsAux_cons_no_div f c x
        (startsWith_cons_false _ _ _ _ hc) (startsWith_cons_false _ _ _ _ hc)
  | c :: c2 :: a', _, h, fuel, x => by
    have hc : ('<' == c) = false :=
      beq_eq_false_iff_ne.mpr
        (fun he => h c (List.mem_cons_self c (c2 :: a')) he.symm)
    match fuel with
    | 0 => exact ⟨0, Nat.le_refl 0, rfl⟩
    | f + 1 =>
      obtain ⟨g, hg, he⟩ := removeDivsAux_push (c2 :: a') (by simp)
        (fun d hd => h d (List.mem_cons_of_mem c hd)) f x
      refine ⟨g, Nat.le_trans hg (Nat.le_succ f), ?_⟩
      show removeDivsAux (f + 1) (c :: ((c2 :: a') ++ x)) =
        c :: ((c2 :: a') ++ removeDivsAux g x)
      rw [removeDivsAux_cons_no_div f c _
        (startsWith_cons_false _ _ _ _ hc) (startsWith_cons_false _ _ _ _ hc), he]

/-- Neither div pattern matches at a whitelisted opening tag. -/
theorem div_patterns_opening (t : List Char) (ht : t ∈ keep_tags)
    (rest : List Char) :
    startsWith (chars ("</div>")) ('<' :: (t ++ '>' :: rest)) = false ∧
    startsWith (chars ("<div")) ('<' :: (t ++ '>' :: rest)) = false := by
  obtain ⟨th, tt, rfl⟩ : ∃ th tt, t = th :: tt := by
    match t, (keep_tags_chars t ht).1 with
    | th :: tt, _ => exact ⟨th, tt, rfl⟩
  have hhd := keep_tags_head _ ht
  simp only [List.head?] at hhd
  have hd : ('d' == th) = false := by
    rw [beq_eq_false_iff_ne]
    rintro rfl
    exact hhd.1 rfl
  have hs : ('/' == th) = false := by
    rw [beq_eq_false_iff_ne]
    rintro rfl
    exact hhd.2 rfl
  constructor
  · show startsWith ('<' :: '/' :: chars ("div>"))
      ('<' :: (th :: (tt ++ '>' :: rest))) = false
    simp [startsWith, hs]
  · show startsWith ('<' :: 'd' :: chars ("iv"))
      ('<' :: (th :: (tt ++ '>' :: rest))) = false
    simp [startsWith, hd]

/-- Neither div pattern matches at a whitelisted closing tag. -/
theorem div_patterns_closing (t : List Char) (ht : t ∈ keep_tags)
    (rest : List Char) :
    startsWith (chars ("</div>")) ('<' :: '/' :: (t ++ '>' :: rest)) = false ∧
    startsWith (chars ("<div")) ('<' :: '/' :: (t ++ '>' :: rest)) = false := by
  obtain ⟨th, tt, rfl⟩ : ∃ th tt, t = th :: tt := by
    match t, (keep_tags_chars t ht).1 with
    | th :: tt, _ => exact ⟨th, tt, rfl⟩
  have hhd := keep_tags_head _ ht
  simp only [List.head?] at hhd
  have hd : ('d' == th) = false := by
    rw [beq_eq_false_iff_ne]
    rintro rfl
    exact hhd.1 rfl
  constructor
  · show startsWith ('<' :: '/' :: 'd' :: chars ("iv>"))
      ('<' :: '/' :: (th :: (tt ++ '>' :: rest))) = false
    simp [startsWith, hd]
  · show startsWith ('<' :: 'd' :: chars ("iv"))
      ('<' :: '/' :: (th :: (tt ++ '>' :: rest))) = false
    simp [startsWith]

/-- Step 5 preserves whitelist-clean strings: no whitelisted tag matches
either div pattern, so nothing is removed from tags. -/
theorem removeDivsAux_preserves_wf :
    ∀ (fuel : Nat) (s : List Char), WfTags s →
      WfTags (removeDivsAux fuel s) := by
  intro fuel
  induction fuel using Nat.strong_induction_on with
  | _ fuel IH =>
    match fuel with
    | 0 => intro s h; exact h
    | f + 1 =>
      intro s h
      cases h with
      | nil => exact WfTags.nil
      | chr c rest hc hrest =>
        have hcb : ('<' == c) = false :=
          beq_eq_false_iff_ne.mpr (fun he => hc he.symm)
        rw [removeDivsAux_cons_no_div f c rest
          (startsWith_cons_false _ _ _ _ hcb) (startsWith_cons_false _ _ _ _ hcb)]
        exact WfTags.chr c _ hc (IH f (Nat.lt_succ_self f) _ hrest)
      | opening t rest ht hrest =>
        obtain ⟨hp1, hp2⟩ := div_patterns_opening t ht rest
        rw [removeDivsAux_cons_no_div f '<' _ hp1 hp2]
        have e : t ++ '>' :: rest = (t ++ ['>']) ++ rest := by simp
        rw [e]
        obtain ⟨g, hg, he⟩ := removeDivsAux_push (t ++ ['>']) (by simp)
          (fun d hd => (tag_body_chars t ht d hd).1) f rest
        rw [he]
        have e2 : (t ++ ['>']) ++ removeDivsAux g rest =
            t ++ '>' :: removeDivsAux g rest := by simp
        rw [e2]
        exact WfTags.opening t _ ht (IH g (Nat.lt_succ_of_le hg) _ hrest)
      | closing t rest ht hrest =>
        obtain ⟨hp1, hp2⟩ := div_patterns_closing t ht rest
        rw [removeDivsAux_cons_no_div f '<' _ hp1 hp2]
        have e : '/' :: (t ++ '>' :: rest) = ('/' :: (t ++ ['>'])) ++ rest := by
          simp
        rw [e]
        obtain ⟨g, hg, he⟩ := removeDivsAux_push ('/' :: (t ++ ['>'])) (by simp)
          (fun d hd => (tag_body_chars_close t ht d hd).1) f rest
        rw [he]
        have e2 : ('/' :: (t ++ ['>'])) ++ removeDivsAux g rest =
            '/' :: (t ++ '>' :: removeDivsAux g rest) := by simp
        rw [e2]
        exact WfTags.closing t _ ht (IH g (Nat.lt_succ_of_le hg) _ hrest)

theorem wfCont_append (a b : List Char) (ha : WfCont a) (hb : WfCont b) :
    WfCont (a ++ b) := by
  intro x hx
  rw [List.append_assoc]
  exact ha _ (hb x hx)

/-- Composing two offset shifts on an optional scan result. -/
theorem option_shift_shift (o : Option (Nat × Nat)) (m n : Nat) :
    ((o.map (fun p => (p.1 + m, p.2))).map (fun p => (p.1 + n, p.2))) =
      o.map (fun p => (p.1 + (m + n), p.2)) := by
  cases o with
  | none => rfl
  | some p => simp [Nat.add_assoc]

theorem matchClosing_cons_ne (tags : List (List Char)) (c : Char)
    (z : List Char) (hc : c ≠ '<') : matchClosing tags (c :: z) = none := by
  have : startsWith (chars ("</")) (c :: z) = false :=
    startsWith_cons_false _ _ _ _
      (beq_eq_false_iff_ne.mpr (fun he => hc he.symm))
  simp [matchClosing, this]

/-- The closing pattern does not match at a whitelisted opening tag. -/
theorem matchClosing_opening (tags : List (List Char)) (t : List Char)
    (ht : t ∈ keep_tags) (rest : List Char) :
    matchClosing tags ('<' :: (t ++ '>' :: rest)) = none := by
  obtain ⟨th, tt, rfl⟩ : ∃ th tt, t = th :: tt := by
    match t, (keep_tags_chars t ht).1 with
    | th :: tt, _ => exact ⟨th, tt, rfl⟩
  have hs : ('/' == th) = false := by
    rw [beq_eq_false_iff_ne]
    intro he
    exact ((keep_tags_chars _ ht).2 th (List.mem_cons_self th tt)).2.2.1 he.symm
  have : startsWith (chars ("</")) ('<' :: (th :: (tt ++ '>' :: rest))) = false := by
    show startsWith ('<' :: '/' :: []) ('<' :: (th :: (tt ++ '>' :: rest))) = false
    simp [startsWith, hs]
  simp [matchClosing, this]

/-- Evaluation of the closing-tag alternation at a whitelisted tag name:
the alternation matches exactly when the tag is a block tag, and then it
matches that very tag. -/
theorem tryCloseTags_eval (t : List Char) (ht : t ∈ keep_tags)
    (rest : List Char) :
    tryCloseTags block_tags (t ++ '>' :: rest) =
      if t ∈ block_tags then some (t.length + 3) else none := by
  fin_cases ht <;> simp [tryCloseTags, startsWith, block_tags_eq] <;> decide

/-- The closing pattern at a whitelisted closing tag: it matches exactly
the block tags, with the closing tag's own length. -/
theorem matchClosing_closing (t : List Char) (ht : t ∈ keep_tags)
    (rest : List Char) :
    matchClosing block_tags ('<' :: '/' :: (t ++ '>' :: rest)) =
      if t ∈ block_tags then some (t.length + 3) else none := by
  have hsw : startsWith (chars ("</")) ('<' :: '/' :: (t ++ '>' :: rest)) = true := by
    show startsWith ('<' :: '/' :: []) ('<' :: '/' :: (t ++ '>' :: rest)) = true
    simp [startsWith]
  rw [matchClosing, hsw, if_pos rfl]
  exact tryCloseTags_eval t ht rest

theorem scanClosing_cons_nomatch (tags : List (List Char)) (c : Char)
    (z : List Char) (h : matchClosing tags (c :: z) = none) :
    scanClosing tags (c :: z) =
      (scanClosing tags z).map (fun p => (p.1 + 1, p.2)) := by
  simp [scanClosing, h]

theorem scanClosing_cons_match (tags : List (List Char)) (c : Char)
    (z : List Char) (k : Nat) (h : matchClosing tags (c :: z) = some k) :
    scanClosing tags (c :: z) = some (0, k) := by
  simp [scanClosing, h]

/-- Shifting the closing-tag scan through a block of non-`'<'`
characters. -/
theorem scanClosing_shift (tags : List (List Char)) :
    ∀ (a x : List Char), (∀ c ∈ a, c ≠ '<') →
      scanClosing tags (a ++ x) =
        (scanClosing tags x).map (fun p => (p.1 + a.length, p.2))
  | [], x, _ => by
    rw [List.nil_append]
    cases h : scanClosing tags x with
    | none => rfl
    | some p => simp
  | c :: a', x, h => by
    have hc := h c (List.mem_cons_self c a')
    show scanClosing tags (c :: (a' ++ x)) = _
    rw [scanClosing_cons_nomatch tags c _ (matchClosing_cons_ne tags c _ hc),
      scanClosing_shift tags a' x (fun d hd => h d (List.mem_cons_of_mem c hd)),
      option_shift_shift]
    simp [Nat.add_comm]

/-! Decomposition of a successful closing-tag scan in a whitelist-clean
string: the scan finds an actual whitelisted closing-tag segment, the text
before it is a whole number of segments, and the text after it is again
whitelist-clean. -/
theorem scanClosing_wf (u : List Char) (h : WfTags u) :
    ∀ off clen, scanClosing block_tags u = some (off, clen) →
      ∃ a t rest2, u = a ++ ('<' :: '/' :: (t ++ '>' :: rest2)) ∧
        off = a.length ∧ clen = t.length + 3 ∧ t ∈ keep_tags ∧
        WfCont a ∧ WfTags rest2 := by
  induction h with
  | nil => intro off clen hscan; simp [scanClosing] at hscan
  | chr c rest hc _ ih =>
    intro off clen hscan
    rw [scanClosing_cons_nomatch _ c _ (matchClosing_cons_ne _ c _ hc)] at hscan
    obtain ⟨p, hp, hpe⟩ := Option.map_eq_some'.mp hscan
    obtain ⟨a, t, rest2, hu, hoff, hclen, htk, hwca, hwfr⟩ := ih p.1 p.2 (by
      rw [hp])
    refine ⟨c :: a, t, rest2, by rw [List.cons_append, ← hu], ?_, ?_, htk,
      wfCont_chr c a hc hwca, hwfr⟩
    · have : p.1 + 1 = off := congrArg Prod.fst hpe
      simp [← this, hoff]
    · have : p.2 = clen := congrArg Prod.snd hpe
      rw [← this, hclen]
  | opening t rest ht _ ih =>
    intro off clen hscan
    rw [scanClosing_cons_nomatch _ '<' _ (matchClosing_opening _ t ht rest)]
      at hscan
    have e : t ++ '>' :: rest = (t ++ ['>']) ++ rest := by simp
    rw [e, scanClosing_shift block_tags (t ++ ['>']) rest
      (fun d hd => (tag_body_chars t ht d hd).1), option_shift_shift] at hscan
    obtain ⟨p, hp, hpe⟩ := Option.map_eq_some'.mp hscan
    obtain ⟨a, tc, rest2, hu, hoff, hclen, htk, hwca, hwfr⟩ := ih p.1 p.2 (by
      rw [hp])
    refine ⟨'<' :: (t ++ '>' :: a), tc, rest2, ?_, ?_, ?_, htk,
      wfCont_opening t a ht hwca, hwfr⟩
    · rw [hu]; simp
    · have h1 : p.1 + ((t ++ ['>']).length + 1) = off := congrArg Prod.fst hpe
      rw [← h1, hoff]
      simp
      omega
    · have : p.2 = clen := congrArg Prod.snd hpe
      rw [← this, hclen]
  | closing t rest ht hrest ih =>
    intro off clen hscan
    by_cases hb : t ∈ block_tags
    · rw [scanClosing_cons_match _ '<' _ (t.length + 3) (by
        rw [matchClosing_closing t ht rest, if_pos hb])] at hscan
      obtain ⟨h1, h2⟩ := Prod.mk.injEq _ _ _ _ ▸ (Option.some.injEq _ _ ▸ hscan)
      refine ⟨[], t, rest, by simp, by simp [← h1], by simp [← h2], ht,
        wfCont_nil, hrest⟩
    · rw [scanClosing_cons_nomatch _ '<' _ (by
        rw [matchClosing_closing t ht rest, if_neg hb])] at hscan
      rw [scanClosing_cons_nomatch _ '/' _
        (matchClosing_cons_ne _ '/' _ (by decide))] at hscan
      have e : t ++ '>' :: rest = (t ++ ['>']) ++ rest := by simp
      rw [e, scanClosing_shift block_tags (t ++ ['>']) rest
        (fun d hd => (tag_body_chars t ht d hd).1), option_shift_shift,
        option_shift_shift] at hscan
      obtain ⟨p, hp, hpe⟩ := Option.map_eq_some'.mp hscan
      obtain ⟨a, tc, rest2, hu, hoff, hclen, htk, hwca, hwfr⟩ := ih p.1 p.2 (by
        rw [hp])
      refine ⟨'<' :: '/' :: (t ++ '>' :: a), tc, rest2, ?_, ?_, ?_, htk,
        wfCont_closing t a ht hwca, hwfr⟩
      · rw [hu]; simp
      · have h1 := congrArg Prod.fst hpe
        simp only at h1
        rw [← h1, hoff]
        simp
        omega
      · have : p.2 = clen := congrArg Prod.snd hpe
        rw [← this, hclen]

/-- No opening-tag alternative matches at a `'/'` (i.e. at a closing
tag). -/
theorem tryOpenTags_slash (all : List (List Char)) (z : List Char) :
    tryOpenTags all block_tags ('/' :: z) = none := by
  rw [block_tags_eq]
  simp [tryOpenTags, startsWith]

/-- No opening-tag alternative matches at a whitelisted non-block tag. -/
theorem tryOpenTags_not_block (all : List (List Char)) (t : List Char)
    (ht : t ∈ keep_tags) (hnb : t ∉ block_tags) (rest : List Char) :
    tryOpenTags all block_tags (t ++ '>' :: rest) = none := by
  rw [keep_tags_eq] at ht
  fin_cases ht <;>
    first
      | exact absurd (by decide) hnb
      | (rw [block_tags_eq]; simp [tryOpenTags, startsWith])

/-- At a block tag immediately followed by `'>'` and nothing else, the
step-3 pattern fails: the content group needs at least one character. -/
theorem tryOpenTags_block_nil (all : List (List Char)) (t : List Char)
    (hb : t ∈ block_tags) :
    tryOpenTags all block_tags (t ++ ['>']) = none := by
  rw [block_tags_eq] at hb
  fin_cases hb <;>
    (rw [block_tags_eq]; simp [tryOpenTags, startsWith, attemptAfterName, findChar])

/-- At a block tag with non-empty remainder, the step-3 pattern matches
exactly when the lazy closing-tag scan succeeds on the tail, and the match
length is determined by that scan. -/
theorem tryOpenTags_block_cons (all : List (List Char)) (t : List Char)
    (hb : t ∈ block_tags) (c1 : Char) (ctail : List Char) :
    tryOpenTags all block_tags (t ++ '>' :: (c1 :: ctail)) =
      (scanClosing all ctail).map (fun p => t.length + (3 + (p.1 + p.2))) := by
  rw [block_tags_eq] at hb
  fin_cases hb <;>
    (rw [block_tags_eq]
     cases hs : scanClosing all ctail with
     | none => simp [tryOpenTags, startsWith, attemptAfterName, findChar, hs]
     | some p =>
       simp [tryOpenTags, startsWith, attemptAfterName, findChar, hs]
       omega)

theorem matchBlockAt_cons_lt (tags : List (List Char)) (z : List Char) :
    matchBlockAt tags ('<' :: z) = tryOpenTags tags tags z := by
  simp [matchBlockAt]

/-- Decomposition of a successful step-3 match in a whitelist-clean string:
the match covers whole segments (an opening block tag, a segment-aligned
content region, a closing block tag), and the remainder is again
whitelist-clean. -/
theorem matchBlockAt_wf (s : List Char) (h : WfTags s) :
    ∀ n, matchBlockAt block_tags s = some n →
      ∃ A B, s = A ++ B ∧ A.length = n ∧ WfCont A ∧ WfTags B := by
  cases h with
  | nil => intro n hm; simp [matchBlockAt] at hm
  | chr c rest hc hrest =>
    intro n hm
    rw [matchBlockAt_eq_none _ c rest (beq_eq_false_iff_ne.mpr hc)] at hm
    cases hm
  | closing t rest ht hrest =>
    intro n hm
    rw [matchBlockAt_cons_lt, tryOpenTags_slash] at hm
    cases hm
  | opening t rest ht hrest =>
    intro n hm
    rw [matchBlockAt_cons_lt] at hm
    by_cases hb : t ∈ block_tags
    · cases hrest with
      | nil =>
        rw [show (t ++ '>' :: ([] : List Char)) = t ++ ['>'] from rfl,
          tryOpenTags_block_nil block_tags t hb] at hm
        cases hm
      | chr c1 ctail hc1 hctail =>
        rw [tryOpenTags_block_cons block_tags t hb c1 ctail] at hm
        obtain ⟨p, hp, hpe⟩ := Option.map_eq_some'.mp hm
        obtain ⟨a, tc, rest2, hu, hoff, hclen, htk, hwca, hwfr⟩ :=
          scanClosing_wf ctail hctail p.1 p.2 (by rw [hp])
        refine ⟨('<' :: (t ++ '>' :: (c1 :: a))) ++ ('<' :: '/' :: (tc ++ ['>'])),
          rest2, ?_, ?_, ?_, hwfr⟩
        · rw [hu]; simp
        · rw [← hpe, hoff, hclen]; simp; omega
        · exact wfCont_append _ _
            (wfCont_opening t _ ht (wfCont_chr c1 a hc1 hwca))
            (wfCont_closing tc [] htk wfCont_nil)
      | opening t2 rest3 ht2 hrest3 =>
        rw [tryOpenTags_block_cons block_tags t hb '<' _] at hm
        have e : t2 ++ '>' :: rest3 = (t2 ++ ['>']) ++ rest3 := by simp
        rw [e, scanClosing_shift block_tags (t2 ++ ['>']) rest3
          (fun d hd => (tag_body_chars t2 ht2 d hd).1), Option.map_map] at hm
        obtain ⟨q, hq, hqe⟩ := Option.map_eq_some'.mp hm
        obtain ⟨a, tc, rest2, hu, hoff, hclen, htk, hwca, hwfr⟩ :=
          scanClosing_wf rest3 hrest3 q.1 q.2 (by rw [hq])
        refine ⟨('<' :: (t ++ '>' :: ('<' :: (t2 ++ '>' :: a)))) ++
          ('<' :: '/' :: (tc ++ ['>'])), rest2, ?_, ?_, ?_, hwfr⟩
        · rw [hu]; simp
        · simp only [Function.comp_apply] at hqe
          rw [← hqe, hoff, hclen]; simp; omega
        · exact wfCont_append _ _
            (wfCont_opening t _ ht (wfCont_opening t2 a ht2 hwca))
            (wfCont_closing tc [] htk wfCont_nil)
      | closing t2 rest3 ht2 hrest3 =>
        rw [tryOpenTags_block_cons block_tags t hb '<' _] at hm
        rw [scanClosing_cons_nomatch block_tags '/' _
          (matchClosing_cons_ne block_tags '/' _ (by decide))] at hm
        have e : t2 ++ '>' :: rest3 = (t2 ++ ['>']) ++ rest3 := by simp
        rw [e, scanClosing_shift block_tags (t2 ++ ['>']) rest3
          (fun d hd => (tag_body_chars t2 ht2 d hd).1), option_shift_shift,
          Option.map_map] at hm
        obtain ⟨q, hq, hqe⟩ := Option.map_eq_some'.mp hm
        obtain ⟨a, tc, rest2, hu, hoff, hclen, htk, hwca, hwfr⟩ :=
          scanClosing_wf rest3 hrest3 q.1 q.2 (by rw [hq])
        refine ⟨('<' :: (t ++ '>' :: ('<' :: '/' :: (t2 ++ '>' :: a)))) ++
          ('<' :: '/' :: (tc ++ ['>'])), rest2, ?_, ?_, ?_, hwfr⟩
        · rw [hu]; simp
        · simp only [Function.comp_apply] at hqe
          rw [← hqe, hoff, hclen]; simp; omega
        · exact wfCont_append _ _
            (wfCont_opening t _ ht (wfCont_closing t2 a ht2 hwca))
            (wfCont_closing tc [] htk wfCont_nil)
    · rw [tryOpenTags_not_block block_tags t ht hb rest] at hm
      cases hm

theorem blockNewlinesAux_cons_nomatch (tags : List (List Char)) (f : Nat)
    (c : Char) (z : List Char) (h : matchBlockAt tags (c :: z) = none) :
    blockNewlinesAux tags (f + 1) (c :: z) =
      c :: blockNewlinesAux tags f z := by
  simp [blockNewlinesAux, h]

theorem blockNewlinesAux_cons_match (tags : List (List Char)) (f : Nat)
    (c : Char) (z : List Char) (n : Nat)
    (h : matchBlockAt tags (c :: z) = some n) :
    blockNewlinesAux tags (f + 1) (c :: z) =
      (c :: z).take n ++ '\n' :: blockNewlinesAux tags f ((c :: z).drop n) := by
  simp [blockNewlinesAux, h]

/-- Pushing the step-3 scanner through a block of non-`'<'` characters. -/
theorem blockNewlinesAux_push (tags : List (List Char)) :
    ∀ (a : List Char), a ≠ [] → (∀ c ∈ a, c ≠ '<') →
      ∀ (fuel : Nat) (x : List Char),
      ∃ g, g ≤ fuel ∧
        blockNewlinesAux tags fuel (a ++ x) = a ++ blockNewlinesAux tags g x
  | [], hne, _, _, _ => absurd rfl hne
  | [c], _, h, fuel, x => by
    have hc : (c == '<') = false :=
      beq_eq_false_iff_ne.mpr (h c (List.mem_cons_self c []))
    match fuel with
    | 0 => exact ⟨0, Nat.le_refl 0, rfl⟩
    | f + 1 =>
      refine ⟨f, Nat.le_succ f, ?_⟩
      show blockNewlinesAux tags (f + 1) (c :: x) =
        c :: blockNewlinesAux tags f x
      exact blockNewlinesAux_cons_nomatch tags f c x
        (matchBlockAt_eq_none tags c x hc)
  | c :: c2 :: a', _, h, fuel, x => by
    have hc : (c == '<') = false :=
      beq_eq_false_iff_ne.mpr (h c (List.mem_cons_self c (c2 :: a')))
    match fuel with
    | 0 => exact ⟨0, Nat.le_refl 0, rfl⟩
    | f + 1 =>
      obtain ⟨g, hg, he⟩ := blockNewlinesAux_push tags (c2 :: a') (by simp)
        (fun d hd => h d (List.mem_cons_of_mem c hd)) f x
      refine ⟨g, Nat.le_trans hg (Nat.le_succ f), ?_⟩
      show blockNewlinesAux tags (f + 1) (c :: ((c2 :: a') ++ x)) =
        c :: ((c2 :: a') ++ blockNewlinesAux tags g x)
      rw [blockNewlinesAux_cons_nomatch tags f c _
        (matchBlockAt_eq_none tags c _ hc), he]

/-- Step 3 preserves whitelist-clean strings: a match covers whole
segments and the inserted newline is an ordinary character. -/
theorem blockNewlinesAux_preserves_wf :
    ∀ (fuel : Nat) (s : List Char), WfTags s →
      WfTags (blockNewlinesAux block_tags fuel s) := by
  intro fuel
  induction fuel using Nat.strong_induction_on with
  | _ fuel IH =>
    match fuel with
    | 0 => intro s h; exact h
    | f + 1 =>
      intro s h
      cases hm : matchBlockAt block_tags s with
      | some n =>
        obtain ⟨A, B, hsAB, hlen, hA, hB⟩ := matchBlockAt_wf s h n hm
        match s, hm with
        | c :: z, hm =>
          rw [blockNewlinesAux_cons_match block_tags f c z n hm, hsAB, ← hlen,
            List.take_left, List.drop_left]
          exact hA _ (WfTags.chr '\n' _ (by decide)
            (IH f (Nat.lt_succ_self f) _ hB))
      | none =>
        cases h with
        | nil => exact WfTags.nil
        | chr c rest hc hrest =>
          rw [blockNewlinesAux_cons_nomatch block_tags f c rest hm]
          exact WfTags.chr c _ hc (IH f (Nat.lt_succ_self f) _ hrest)
        | opening t rest ht hrest =>
          rw [blockNewlinesAux_cons_nomatch block_tags f '<' _ hm]
          have e : t ++ '>' :: rest = (t ++ ['>']) ++ rest := by simp
          rw [e]
          obtain ⟨g, hg, he⟩ := blockNewlinesAux_push block_tags (t ++ ['>'])
            (by simp) (fun d hd => (tag_body_chars t ht d hd).1) f rest
          rw [he]
          have e2 : (t ++ ['>']) ++ blockNewlinesAux block_tags g rest =
              t ++ '>' :: blockNewlinesAux block_tags g rest := by simp
          rw [e2]
          exact WfTags.opening t _ ht (IH g (Nat.lt_succ_of_le hg) _ hrest)
        | closing t rest ht hrest =>
          rw [blockNewlinesAux_cons_nomatch block_tags f '<' _ hm]
          have e : '/' :: (t ++ '>' :: rest) = ('/' :: (t ++ ['>'])) ++ rest := by
            simp
          rw [e]
          obtain ⟨g, hg, he⟩ := blockNewlinesAux_push block_tags
            ('/' :: (t ++ ['>'])) (by simp)
            (fun d hd => (tag_body_chars_close t ht d hd).1) f rest
          rw [he]
          have e2 : ('/' :: (t ++ ['>'])) ++ blockNewlinesAux block_tags g rest =
              '/' :: (t ++ '>' :: blockNewlinesAux block_tags g rest) := by simp
          rw [e2]
          exact WfTags.closing t _ ht (IH g (Nat.lt_succ_of_le hg) _ hrest)

theorem option_add_add (o : Option Nat) (m n : Nat) :
    ((o.map (fun k => k + m)).map (fun k => k + n)) =
      o.map (fun k => k + (m + n)) := by
  cases o with
  | none => rfl
  | some k => simp [Nat.add_assoc]

theorem scanForNoNl_cons_match (pat : List Char) (c : Char) (z : List Char)
    (h : startsWith pat (c :: z) = true) :
    scanForNoNl pat (c :: z) = some 0 := by
  simp [scanForNoNl, h]

theorem scanForNoNl_cons_nomatch (pat : List Char) (c : Char) (z : List Char)
    (h1 : startsWith pat (c :: z) = false) (h2 : (c == '\n') = false) :
    scanForNoNl pat (c :: z) = (scanForNoNl pat z).map (fun k => k + 1) := by
  simp [scanForNoNl, h1, h2]

/-- The `</li>` literal as an explicit character list. -/
theorem li_close_pat : chars ("</li>") = '<' :: '/' :: 'l' :: 'i' :: '>' :: [] :=
  rfl

/-- Shifting the newline-barred literal scan for `</li>` through a block of
non-`'<'`, non-whitespace characters. -/
theorem scanForNoNl_li_shift :
    ∀ (a x : List Char), (∀ c ∈ a, c ≠ '<' ∧ isPySpace c = false) →
      scanForNoNl ('<' :: '/' :: 'l' :: 'i' :: '>' :: []) (a ++ x) =
        (scanForNoNl ('<' :: '/' :: 'l' :: 'i' :: '>' :: []) x).map
          (fun k => k + a.length)
  | [], x, _ => by
    rw [List.nil_append]
    cases h : scanForNoNl ('<' :: '/' :: 'l' :: 'i' :: '>' :: []) x with
    | none => rfl
    | some k => simp
  | c :: a', x, h => by
    have hc := h c (List.mem_cons_self c a')
    have hlt : ('<' == c) = false :=
      beq_eq_false_iff_ne.mpr (fun he => hc.1 he.symm)
    have hnl : (c == '\n') = false :=
      beq_eq_false_iff_ne.mpr (ne_nl_sp_of_not_pyspace c hc.2).1
    show scanForNoNl ('<' :: '/' :: 'l' :: 'i' :: '>' :: []) (c :: (a' ++ x)) = _
    rw [scanForNoNl_cons_nomatch _ c _ (startsWith_cons_false _ _ _ _ hlt) hnl,
      scanForNoNl_li_shift a' x (fun d hd => h d (List.mem_cons_of_mem c hd)),
      option_add_add]
    simp [Nat.add_comm]

/-- The `</li>` literal does not begin at a whitelisted opening tag. -/
theorem startsWith_li_close_opening (t : List Char) (ht : t ∈ keep_tags)
    (rest : List Char) :
    startsWith ('<' :: '/' :: 'l' :: 'i' :: '>' :: [])
      ('<' :: (t ++ '>' :: rest)) = false := by
  obtain ⟨th, tt, rfl⟩ : ∃ th tt, t = th :: tt := by
    match t, (keep_tags_chars t ht).1 with
    | th :: tt, _ => exact ⟨th, tt, rfl⟩
  have hs : ('/' == th) = false := by
    rw [beq_eq_false_iff_ne]
    intro he
    exact ((keep_tags_chars _ ht).2 th (List.mem_cons_self th tt)).2.2.1 he.symm
  show startsWith ('<' :: '/' :: 'l' :: 'i' :: '>' :: [])
    ('<' :: (th :: (tt ++ '>' :: rest))) = false
  simp [startsWith, hs]

/-- The `</li>` literal begins at a whitelisted closing tag exactly when
the tag is `li`. -/
theorem startsWith_li_close_closing (t : List Char) (ht : t ∈ keep_tags)
    (rest : List Char) :
    startsWith ('<' :: '/' :: 'l' :: 'i' :: '>' :: [])
      ('<' :: '/' :: (t ++ '>' :: rest)) = decide (t = ['l', 'i']) := by
  rw [keep_tags_eq] at ht
  fin_cases ht <;> simp [startsWith]

/-- Decomposition of a successful newline-barred `</li>` scan in a
whitelist-clean string: the occurrence is an actual closing-`li` segment,
preceded by whole newline-free segments. -/
theorem scanForNoNl_li_wf (u : List Char) (h : WfTags u) :
    ∀ off, scanForNoNl ('<' :: '/' :: 'l' :: 'i' :: '>' :: []) u = some off →
      ∃ a rest2, u = a ++ ('<' :: '/' :: (['l', 'i'] ++ '>' :: rest2)) ∧
        off = a.length ∧ WfCont a ∧ WfTags rest2 := by
  induction h with
  | nil =>
    intro off hscan
    rw [show scanForNoNl ('<' :: '/' :: 'l' :: 'i' :: '>' :: []) [] = none
      from rfl] at hscan
    cases hscan
  | chr c rest hc _ ih =>
    intro off hscan
    have hlt : ('<' == c) = false :=
      beq_eq_false_iff_ne.mpr (fun he => hc he.symm)
    by_cases hnl : (c == '\n') = true
    · rw [show scanForNoNl ('<' :: '/' :: 'l' :: 'i' :: '>' :: []) (c :: rest) =
          none from by
        simp [scanForNoNl, hnl, startsWith_cons_false _ _ _ _ hlt]] at hscan
      cases hscan
    · simp only [Bool.not_eq_true] at hnl
      rw [scanForNoNl_cons_nomatch _ c rest
        (startsWith_cons_false _ _ _ _ hlt) hnl] at hscan
      obtain ⟨k, hk, hke⟩ := Option.map_eq_some'.mp hscan
      obtain ⟨a, rest2, hu, hoff, hwca, hwfr⟩ := ih k (by rw [hk])
      refine ⟨c :: a, rest2, by rw [List.cons_append, ← hu], ?_,
        wfCont_chr c a hc hwca, hwfr⟩
      rw [← hke, hoff]
      simp
  | opening t rest ht _ ih =>
    intro off hscan
    rw [scanForNoNl_cons_nomatch _ '<' _
      (startsWith_li_close_opening t ht rest) (by decide)] at hscan
    have e : t ++ '>' :: rest = (t ++ ['>']) ++ rest := by simp
    rw [e, scanForNoNl_li_shift (t ++ ['>']) rest
      (fun d hd => tag_body_chars t ht d hd), option_add_add] at hscan
    obtain ⟨k, hk, hke⟩ := Option.map_eq_some'.mp hscan
    obtain ⟨a, rest2, hu, hoff, hwca, hwfr⟩ := ih k (by rw [hk])
    refine ⟨'<' :: (t ++ '>' :: a), rest2, ?_, ?_,
      wfCont_opening t a ht hwca, hwfr⟩
    · rw [hu]; simp
    · rw [← hke, hoff]; simp; omega
  | closing t rest ht hrest ih =>
    intro off hscan
    by_cases hli : t = ['l', 'i']
    · subst hli
      rw [scanForNoNl_cons_match _ '<' _ (by
        rw [startsWith_li_close_closing _ ht rest]
        decide)] at hscan
      cases hscan
      exact ⟨[], rest, by simp, by simp, wfCont_nil, hrest⟩
    · rw [scanForNoNl_cons_nomatch _ '<' _ (by
        rw [startsWith_li_close_closing t ht rest]
        simp [hli]) (by decide)] at hscan
      rw [show ('/' :: (t ++ '>' :: rest) : List Char) =
        ('/' :: (t ++ ['>'])) ++ rest from by simp] at hscan
      rw [scanForNoNl_li_shift ('/' :: (t ++ ['>'])) rest
        (fun d hd => tag_body_chars_close t ht d hd), option_add_add] at hscan
      obtain ⟨k, hk, hke⟩ := Option.map_eq_some'.mp hscan
      obtain ⟨a, rest2, hu, hoff, hwca, hwfr⟩ := ih k (by rw [hk])
      refine ⟨'<' :: '/' :: (t ++ '>' :: a), rest2, ?_, ?_,
        wfCont_closing t a ht hwca, hwfr⟩
      · rw [hu]; simp
      · rw [← hke, hoff]; simp; omega

theorem matchLiAt_none_of_sw_false (s : List Char)
    (h : startsWith (chars ("<li>")) s = false) : matchLiAt s = none := by
  simp [matchLiAt, h]

/-- The `<li>` literal does not begin at a closing tag. -/
theorem startsWith_li_open_closing (t rest : List Char) :
    startsWith (chars ("<li>")) ('<' :: '/' :: (t ++ '>' :: rest)) = false := by
  show startsWith ('<' :: 'l' :: 'i' :: '>' :: [])
    ('<' :: '/' :: (t ++ '>' :: rest)) = false
  simp [startsWith]

/-- The `<li>` literal does not begin at a whitelisted opening tag other
than `li`. -/
theorem startsWith_li_open_opening_ne (t : List Char) (ht : t ∈ keep_tags)
    (hne : t ≠ ['l', 'i']) (rest : List Char) :
    startsWith (chars ("<li>")) ('<' :: (t ++ '>' :: rest)) = false := by
  show startsWith ('<' :: 'l' :: 'i' :: '>' :: [])
    ('<' :: (t ++ '>' :: rest)) = false
  rw [keep_tags_eq] at ht
  fin_cases ht <;> first
    | exact absurd rfl hne
    | simp [startsWith]

theorem matchLiAt_li_nil : matchLiAt ('<' :: (['l', 'i'] ++ '>' :: [])) = none := by
  simp [matchLiAt, startsWith]

theorem matchLiAt_li_cons (c4 : Char) (rest4 : List Char) :
    matchLiAt ('<' :: (['l', 'i'] ++ '>' :: (c4 :: rest4))) =
      if c4 == '\n' then none
      else (scanForNoNl ('<' :: '/' :: 'l' :: 'i' :: '>' :: []) rest4).map
        (fun off => off + 10) := by
  simp [matchLiAt, startsWith, li_close_pat]

/-- Decomposition of a successful step-4 match in a whitelist-clean string:
the match is an opening `<li>`, a newline-free segment-aligned content
region and a closing `</li>`, and the remainder is whitelist-clean. -/
theorem matchLiAt_wf (s : List Char) (h : WfTags s) :
    ∀ n, matchLiAt s = some n →
      ∃ A B, s = A ++ B ∧ A.length = n ∧ WfCont A ∧ WfTags B := by
  cases h with
  | nil =>
    intro n hm
    rw [show matchLiAt [] = none from rfl] at hm
    cases hm
  | chr c rest hc hrest =>
    intro n hm
    rw [matchLiAt_eq_none c rest (beq_eq_false_iff_ne.mpr hc)] at hm
    cases hm
  | closing t rest ht hrest =>
    intro n hm
    rw [matchLiAt_none_of_sw_false _ (startsWith_li_open_closing t rest)] at hm
    cases hm
  | opening t rest ht hrest =>
    intro n hm
    by_cases hli : t = ['l', 'i']
    · subst hli
      cases hrest with
      | nil =>
        rw [matchLiAt_li_nil] at hm
        cases hm
      | chr c4 rest4 hc4 hrest4 =>
        rw [matchLiAt_li_cons c4 rest4] at hm
        by_cases hnl : (c4 == '\n') = true
        · rw [if_pos hnl] at hm
          cases hm
        · simp only [Bool.not_eq_true] at hnl
          rw [if_neg (by simp [hnl])] at hm
          obtain ⟨k, hk, hke⟩ := Option.map_eq_some'.mp hm
          obtain ⟨a, rest2, hu, hoff, hwca, hwfr⟩ :=
            scanForNoNl_li_wf rest4 hrest4 k (by rw [hk])
          refine ⟨('<' :: (['l', 'i'] ++ '>' :: (c4 :: a))) ++
            ('<' :: '/' :: (['l', 'i'] ++ ['>'])), rest2, ?_, ?_, ?_, hwfr⟩
          · rw [hu]; simp
          · rw [← hke, hoff]; simp
          · exact wfCont_append _ _
              (wfCont_opening _ _ (by decide) (wfCont_chr c4 a hc4 hwca))
              (wfCont_closing ['l', 'i'] [] (by decide) wfCont_nil)
      | opening t2 rest3 ht2 hrest3 =>
        rw [matchLiAt_li_cons '<' _, if_neg (by decide)] at hm
        rw [show t2 ++ '>' :: rest3 = (t2 ++ ['>']) ++ rest3 from by simp,
          scanForNoNl_li_shift (t2 ++ ['>']) rest3
            (fun d hd => tag_body_chars t2 ht2 d hd), option_add_add] at hm
        obtain ⟨k, hk, hke⟩ := Option.map_eq_some'.mp hm
        obtain ⟨a, rest2, hu, hoff, hwca, hwfr⟩ :=
          scanForNoNl_li_wf rest3 hrest3 k (by rw [hk])
        refine ⟨('<' :: (['l', 'i'] ++ '>' :: ('<' :: (t2 ++ '>' :: a)))) ++
          ('<' :: '/' :: (['l', 'i'] ++ ['>'])), rest2, ?_, ?_, ?_, hwfr⟩
        · rw [hu]; simp
        · rw [← hke, hoff]; simp; omega
        · exact wfCont_append _ _
            (wfCont_opening _ _ (by decide)
              (wfCont_opening t2 a ht2 hwca))
            (wfCont_closing ['l', 'i'] [] (by decide) wfCont_nil)
      | closing t2 rest3 ht2 hrest3 =>
        rw [matchLiAt_li_cons '<' _, if_neg (by decide)] at hm
        rw [scanForNoNl_cons_nomatch _ '/' _
          (startsWith_cons_false _ _ _ _ (by decide)) (by decide)] at hm
        rw [show t2 ++ '>' :: rest3 = (t2 ++ ['>']) ++ rest3 from by simp,
          scanForNoNl_li_shift (t2 ++ ['>']) rest3
            (fun d hd => tag_body_chars t2 ht2 d hd), option_add_add,
          option_add_add] at hm
        obtain ⟨k, hk, hke⟩ := Option.map_eq_some'.mp hm
        obtain ⟨a, rest2, hu, hoff, hwca, hwfr⟩ :=
          scanForNoNl_li_wf rest3 hrest3 k (by rw [hk])
        refine ⟨('<' :: (['l', 'i'] ++ '>' :: ('<' :: '/' :: (t2 ++ '>' :: a)))) ++
          ('<' :: '/' :: (['l', 'i'] ++ ['>'])), rest2, ?_, ?_, ?_, hwfr⟩
        · rw [hu]; simp
        · rw [← hke, hoff]; simp; omega
        · exact wfCont_append _ _
            (wfCont_opening _ _ (by decide)
              (wfCont_closing t2 a ht2 hwca))
            (wfCont_closing ['l', 'i'] [] (by decide) wfCont_nil)
    · rw [matchLiAt_none_of_sw_false _
        (startsWith_li_open_opening_ne t ht hli rest)] at hm
      cases hm

theorem liNewlinesAux_cons_nomatch (f : Nat) (c : Char) (z : List Char)
    (h : matchLiAt (c :: z) = none) :
    liNewlinesAux (f + 1) (c :: z) = c :: liNewlinesAux f z := by
  simp [liNewlinesAux, h]

theorem liNewlinesAux_cons_match (f : Nat) (c : Char) (z : List Char)
    (n : Nat) (h : matchLiAt (c :: z) = some n) :
    liNewlinesAux (f + 1) (c :: z) =
      (c :: z).take n ++ '\n' :: liNewlinesAux f ((c :: z).drop n) := by
  simp [liNewlinesAux, h]

/-- Pushing the step-4 scanner through a block of non-`'<'` characters. -/
theorem liNewlinesAux_push :
    ∀ (a : List Char), a ≠ [] → (∀ c ∈ a, c ≠ '<') →
      ∀ (fuel : Nat) (x : List Char),
      ∃ g, g ≤ fuel ∧ liNewlinesAux fuel (a ++ x) = a ++ liNewlinesAux g x
  | [], hne, _, _, _ => absurd rfl hne
  | [c], _, h, fuel, x => by
    have hc : (c == '<') = false :=
      beq_eq_false_iff_ne.mpr (h c (List.mem_cons_self c []))
    match fuel with
    | 0 => exact ⟨0, Nat.le_refl 0, rfl⟩
    | f + 1 =>
      refine ⟨f, Nat.le_succ f, ?_⟩
      show liNewlinesAux (f + 1) (c :: x) = c :: liNewlinesAux f x
      exact liNewlinesAux_cons_nomatch f c x (matchLiAt_eq_none c x hc)
  | c :: c2 :: a', _, h, fuel, x => by
    have hc : (c == '<') = false :=
      beq_eq_false_iff_ne.mpr (h c (List.mem_cons_self c (c2 :: a')))
    match fuel with
    | 0 => exact ⟨0, Nat.le_refl 0, rfl⟩
    | f + 1 =>
      obtain ⟨g, hg, he⟩ := liNewlinesAux_push (c2 :: a') (by simp)
        (fun d hd => h d (List.mem_cons_of_mem c hd)) f x
      refine ⟨g, Nat.le_trans hg (Nat.le_succ f), ?_⟩
      show liNewlinesAux (f + 1) (c :: ((c2 :: a') ++ x)) =
        c :: ((c2 :: a') ++ liNewlinesAux g x)
      rw [liNewlinesAux_cons_nomatch f c _ (matchLiAt_eq_none c _ hc), he]

/-- Step 4 preserves whitelist-clean strings. -/
theorem liNewlinesAux_preserves_wf :
    ∀ (fuel : Nat) (s : List Char), WfTags s →
      WfTags (liNewlinesAux fuel s) := by
  intro fuel
  induction fuel using Nat.strong_induction_on with
  | _ fuel IH =>
    match fuel with
    | 0 => intro s h; exact h
    | f + 1 =>
      intro s h
      cases hm : matchLiAt s with
      | some n =>
        obtain ⟨A, B, hsAB, hlen, hA, hB⟩ := matchLiAt_wf s h n hm
        match s, hm with
        | c :: z, hm =>
          rw [liNewlinesAux_cons_match f c z n hm, hsAB, ← hlen,
            List.take_left, List.drop_left]
          exact hA _ (WfTags.chr '\n' _ (by decide)
            (IH f (Nat.lt_succ_self f) _ hB))
      | none =>
        cases h with
        | nil => exact WfTags.nil
        | chr c rest hc hrest =>
          rw [liNewlinesAux_cons_nomatch f c rest hm]
          exact WfTags.chr c _ hc (IH f (Nat.lt_succ_self f) _ hrest)
        | opening t rest ht hrest =>
          rw [liNewlinesAux_cons_nomatch f '<' _ hm]
          have e : t ++ '>' :: rest = (t ++ ['>']) ++ rest := by simp
          rw [e]
          obtain ⟨g, hg, he⟩ := liNewlinesAux_push (t ++ ['>']) (by simp)
            (fun d hd => (tag_body_chars t ht d hd).1) f rest
          rw [he]
          have e2 : (t ++ ['>']) ++ liNewlinesAux g rest =
              t ++ '>' :: liNewlinesAux g rest := by simp
          rw [e2]
          exact WfTags.opening t _ ht (IH g (Nat.lt_succ_of_le hg) _ hrest)
        | closing t rest ht hrest =>
          rw [liNewlinesAux_cons_nomatch f '<' _ hm]
          have e : '/' :: (t ++ '>' :: rest) = ('/' :: (t ++ ['>'])) ++ rest := by
            simp
          rw [e]
          obtain ⟨g, hg, he⟩ := liNewlinesAux_push ('/' :: (t ++ ['>']))
            (by simp) (fun d hd => (tag_body_chars_close t ht d hd).1) f rest
          rw [he]
          have e2 : ('/' :: (t ++ ['>'])) ++ liNewlinesAux g rest =
              '/' :: (t ++ '>' :: liNewlinesAux g rest) := by simp
          rw [e2]
          exact WfTags.closing t _ ht (IH g (Nat.lt_succ_of_le hg) _ hrest)

/-- Entity escaping leaves no `'<'` in serialized text nodes. -/
theorem escapeText_no_lt : ∀ (s : List Char), ∀ c ∈ escapeText s, c ≠ '<'
  | [], c, hc => by simp [escapeText] at hc
  | d :: ds, c, hc => by
    rw [escapeText] at hc
    rcases List.mem_append.mp hc with hc | hc
    · by_cases h1 : (d == '&') = true
      · simp only [h1, if_true] at hc
        rw [show chars ("&amp;") = ['&', 'a', 'm', 'p', ';'] from rfl] at hc
        fin_cases hc <;> decide
      · simp only [h1, Bool.false_eq_true, if_false] at hc
        by_cases h2 : (d == '<') = true
        · simp only [h2, if_true] at hc
          rw [show chars ("&lt;") = ['&', 'l', 't', ';'] from rfl] at hc
          fin_cases hc <;> decide
        · simp only [h2, Bool.false_eq_true, if_false] at hc
          by_cases h3 : (d == '>') = true
          · simp only [h3, if_true] at hc
            rw [show chars ("&gt;") = ['&', 'g', 't', ';'] from rfl] at hc
            fin_cases hc <;> decide
          · simp only [h3, Bool.false_eq_true, if_false,
              List.mem_singleton] at hc
            subst hc
            simp only [Bool.not_eq_true] at h2
            exact beq_eq_false_iff_ne.mp h2
    · exact escapeText_no_lt ds c hc

mutual

/-- The serialization of a whitelisted attribute-free node is a sequence of
whole whitelist-clean segments. -/
theorem serializeNode_wf : ∀ (n : HtmlNode), nodeOK n = true →
    ∀ x, WfTags x → WfTags (serializeNode n ++ x)
  | .text s, _, x, hx => by
    rw [serializeNode]
    exact wfCont_no_lt (escapeText s) (escapeText_no_lt s) x hx
  | .element nm attrs cs, hok, x, hx => by
    rw [nodeOK] at hok
    simp only [Bool.and_eq_true] at hok
    obtain ⟨⟨hnm, hattrs⟩, hcs⟩ := hok
    have hnm' : nm ∈ keep_tags := by simpa using hnm
    have hattrs' : attrs = [] := List.isEmpty_iff.mp hattrs
    subst hattrs'
    rw [serializeNode]
    have e : ('<' :: nm ++
        ([] : List (List Char × List Char)).flatMap
          (fun a => ' ' :: a.1 ++ chars ("=\"") ++ escapeText a.2 ++ ['"']) ++
        '>' :: serializeForest cs ++ chars ("</") ++ nm ++ ['>']) ++ x =
        '<' :: (nm ++ '>' :: (serializeForest cs ++
          ('<' :: '/' :: (nm ++ '>' :: x)))) := by
      rw [show chars ("</") = ['<', '/'] from rfl]
      simp
    rw [e]
    exact WfTags.opening nm _ hnm'
      (serializeForest_wf cs hcs _ (WfTags.closing nm x hnm' hx))

/-- The serialization of a whitelisted attribute-free forest is a sequence
of whole whitelist-clean segments. -/
theorem serializeForest_wf : ∀ (f : HtmlForest), forestOK f = true →
    ∀ x, WfTags x → WfTags (serializeForest f ++ x)
  | .nil, _, x, hx => by
    rw [serializeForest]
    exact hx
  | .cons n f, hok, x, hx => by
    rw [forestOK] at hok
    simp only [Bool.and_eq_true] at hok
    rw [serializeForest, List.append_assoc]
    exact serializeNode_wf n hok.1 _ (serializeForest_wf f hok.2 x hx)

end

/-- Dropping a leading whitespace run preserves whitelist-clean strings. -/
theorem dropWhile_pyspace_preserves_wf (s : List Char) (h : WfTags s) :
    WfTags (s.dropWhile isPySpace) := by
  induction h with
  | nil => exact WfTags.nil
  | chr c rest hc hrest ih =>
    rw [List.dropWhile_cons]
    by_cases hcs : isPySpace c
    · simp only [hcs, if_true]
      exact ih
    · simp only [Bool.not_eq_true] at hcs
      simp only [hcs, Bool.false_eq_true, if_false]
      exact WfTags.chr c _ hc hrest
  | opening t rest ht hrest _ =>
    rw [List.dropWhile_cons, show isPySpace '<' = false from by decide]
    simp only [Bool.false_eq_true, if_false]
    exact WfTags.opening t rest ht hrest
  | closing t rest ht hrest _ =>
    rw [List.dropWhile_cons, show isPySpace '<' = false from by decide]
    simp only [Bool.false_eq_true, if_false]
    exact WfTags.closing t rest ht hrest

/-- `stripEndPy` is the identity on lists of non-whitespace characters. -/
theorem stripEndPy_all_keep :
    ∀ (a : List Char), (∀ c ∈ a, isPySpace c = false) → stripEndPy a = a
  | [], _ => rfl
  | c :: a', h => by
    rw [stripEndPy,
      stripEndPy_all_keep a' (fun d hd => h d (List.mem_cons_of_mem c hd))]
    match a' with
    | [] => simp [h c (List.mem_cons_self c [])]
    | y :: ys => rfl

/-- Pushing trailing-run removal through a block of non-whitespace
characters. -/
theorem stripEndPy_append_keep :
    ∀ (a x : List Char), (∀ c ∈ a, isPySpace c = false) →
      stripEndPy (a ++ x) = a ++ stripEndPy x
  | [], _, _ => rfl
  | c :: a', x, h => by
    show stripEndPy (c :: (a' ++ x)) = _
    rw [stripEndPy,
      stripEndPy_append_keep a' x (fun d hd => h d (List.mem_cons_of_mem c hd))]
    cases hcase : a' ++ stripEndPy x with
    | nil =>
      have ha' : a' = [] := by
        cases a' with
        | nil => rfl
        | cons y ys => simp at hcase
      subst ha'
      simp only [List.nil_append] at hcase ⊢
      rw [hcase]
      simp [h c (List.mem_cons_self c [])]
    | cons y ys =>
      show c :: (y :: ys) = c :: (a' ++ stripEndPy x)
      rw [hcase]

/-- `str.strip`'s trailing half computed by reversal equals the recursive
trailing-run removal. -/
theorem stripEnd_eq_reverse :
    ∀ s : List Char, (s.reverse.dropWhile isPySpace).reverse = stripEndPy s
  | [] => rfl
  | c :: rest => by
    rw [stripEndPy, ← stripEnd_eq_reverse rest, List.reverse_cons,
      List.dropWhile_append]
    by_cases hre : ((rest.reverse.dropWhile isPySpace).isEmpty) = true
    · simp only [hre, if_true]
      rw [List.isEmpty_iff.mp hre]
      by_cases hc : isPySpace c
      · simp [List.dropWhile_cons, hc]
      · simp only [Bool.not_eq_true] at hc
        simp [List.dropWhile_cons, hc]
    · simp only [hre, Bool.false_eq_true, if_false, List.reverse_append]
      have : rest.reverse.dropWhile isPySpace ≠ [] := by
        intro he
        rw [he] at hre
        exact hre rfl
      match hm : rest.reverse.dropWhile isPySpace, this with
      | y :: ys, _ => simp

/-- Trailing-run removal preserves whitelist-clean strings. -/
theorem stripEndPy_preserves_wf (s : List Char) (h : WfTags s) :
    WfTags (stripEndPy s) := by
  induction h with
  | nil => exact WfTags.nil
  | chr c rest hc _ ih =>
    rw [stripEndPy]
    cases he : stripEndPy rest with
    | nil =>
      by_cases hcs : isPySpace c
      · simp only [hcs, if_true]
        exact WfTags.nil
      · simp only [Bool.not_eq_true] at hcs
        simp only [hcs, Bool.false_eq_true, if_false]
        exact WfTags.chr c [] hc WfTags.nil
    | cons y ys =>
      rw [he] at ih
      exact WfTags.chr c _ hc ih
  | opening t rest ht _ ih =>
    rw [stripEndPy]
    have e : t ++ '>' :: rest = (t ++ ['>']) ++ rest := by simp
    rw [e, stripEndPy_append_keep (t ++ ['>']) rest
      (fun d hd => (tag_body_chars t ht d hd).2)]
    obtain ⟨th, tt, rfl⟩ : ∃ th tt, t = th :: tt := by
      match t, (keep_tags_chars t ht).1 with
      | th :: tt, _ => exact ⟨th, tt, rfl⟩
    show WfTags ('<' :: (th :: (tt ++ ['>'] ++ stripEndPy rest)))
    have e2 : th :: (tt ++ ['>'] ++ stripEndPy rest) =
        (th :: tt) ++ '>' :: stripEndPy rest := by simp
    rw [e2]
    exact WfTags.opening (th :: tt) _ ht ih
  | closing t rest ht _ ih =>
    rw [stripEndPy]
    have e : '/' :: (t ++ '>' :: rest) = ('/' :: (t ++ ['>'])) ++ rest := by simp
    rw [e, stripEndPy_append_keep ('/' :: (t ++ ['>'])) rest
      (fun d hd => (tag_body_chars_close t ht d hd).2)]
    show WfTags ('<' :: ('/' :: (t ++ ['>'] ++ stripEndPy rest)))
    have e2 : '/' :: (t ++ ['>'] ++ stripEndPy rest) =
        '/' :: (t ++ '>' :: stripEndPy rest) := by simp
    rw [e2]
    exact WfTags.closing t _ ht ih

/-- `str.strip()` preserves whitelist-clean strings. -/
theorem stripPy_preserves_wf (s : List Char) (h : WfTags s) :
    WfTags (stripPy s) := by
  rw [stripPy, stripEnd_eq_reverse]
  exact stripEndPy_preserves_wf _ (dropWhile_pyspace_preserves_wf s h)

/-- The whole of `clean_html` preserves whitelist-clean strings. -/
theorem clean_html_preserves_wf (s : List Char) (h : WfTags s) :
    WfTags (clean_html s block_tags) := by
  rw [clean_html]
  simp only [squeeze, blockNewlines, liNewlines, removeDivs, trimLines]
  exact squeeze_preserves_wf ' ' (by decide) _
    (removeControls_preserves_wf _
      (subSeparators_preserves_wf _
        (squeeze_preserves_wf '\n' (by decide) _
          (removeDivsAux_preserves_wf _ _
            (liNewlinesAux_preserves_wf _ _
              (blockNewlinesAux_preserves_wf _ _
                (trimLinesAux_preserves_wf _ _ _
                  (squeeze_preserves_wf '\n' (by decide) _ h false)))))
          false)))
    false

/-- The serialization of any reduced tree is whitelist-clean. -/
theorem serializeForest_reduce_wf (n : HtmlNode) :
    WfTags (serializeForest (reduceNode n)) := by
  have := serializeForest_wf (reduceNode n) (reduceNode_whitelisted n) []
    WfTags.nil
  simpa using this

/-! ## Claims -/

/-- C1, counterexample: `normalize` is not idempotent.  On
`"<p>a</p> x"` one pass gives `"<p>a</p>\n x"` (step 3 moves `" x"` onto a
new line after the inserted newline), and a second pass strips the now
line-leading space, giving `"<p>a</p>\nx"`. -/
theorem normalize_not_idempotent :
    clean_html (clean_html (chars ("<p>a</p> x")) block_tags) block_tags ≠
      clean_html (chars ("<p>a</p> x")) block_tags := by decide

/-- C1, amended: `normalize` is idempotent on representative inputs
containing mixed Unicode spaces and block tags (the specification's
verification targets), though not on all strings. -/
theorem normalize_idempotent_on_representatives :
    (clean_html (clean_html (chars ("line1\n\n\nline2")) block_tags) block_tags =
      clean_html (chars ("line1\n\n\nline2")) block_tags) ∧
    (clean_html (clean_html (chars ("price\u2000cost")) block_tags) block_tags =
      clean_html (chars ("price\u2000cost")) block_tags) ∧
    (clean_html (clean_html (chars ("<p>text</p>")) block_tags) block_tags =
      clean_html (chars ("<p>text</p>")) block_tags) ∧
    (clean_html (clean_html (chars ("<li>a</li><li>b</li>")) block_tags) block_tags =
      clean_html (chars ("<li>a</li><li>b</li>")) block_tags) ∧
    (clean_html (clean_html (chars ("<p>price\u2000cost</p>")) block_tags) block_tags =
      clean_html (chars ("<p>price\u2000cost</p>")) block_tags) := by decide

/-- C2, counterexample: the block-newline invariant fails on
`normalize("<p></p>")`: the step-3 content group `(.+?)` needs at least one
character, so an empty block element receives no trailing newline and the
closing `</p>` is followed by zero newlines. -/
theorem block_newline_invariant_fails :
    clean_html (chars ("<p></p>")) block_tags = chars ("<p></p>") ∧
    blockNlOk (clean_html (chars ("<p></p>")) block_tags) = false := by decide

/-- C2, amended: on representative well-formed inputs (non-empty content
inside matched block tags) every closing block tag in `normalize`'s output
is followed by exactly one newline. -/
theorem block_newline_on_representatives :
    blockNlOk (clean_html (chars ("<p>text</p>")) block_tags) = true ∧
    blockNlOk (clean_html (chars ("<p>a</p><p>b</p>")) block_tags) = true ∧
    blockNlOk (clean_html (chars ("<h1>Title</h1><p>First</p>")) block_tags) = true ∧
    clean_html (chars ("<p>text</p>")) block_tags = chars ("<p>text</p>\n") := by decide

/-- C3, counterexample: a non-empty string consisting solely of zero-width
and en-quad characters need not normalize to a single space: a lone
`U+200B` is removed by step 8 giving `""`, and a lone `U+2000` is stripped
by the per-line trim of step 2 (it is `\s`) giving `""`. -/
theorem invisible_only_string_can_normalize_to_empty :
    clean_html (chars ("\u200B")) block_tags = [] ∧
    clean_html (chars ("\u2000")) block_tags = [] ∧
    ([] : List Char) ≠ [' '] := by decide

/-- C3, amended: a string consisting solely of zero-width (U+200B) and
en-quad (U+2000) characters normalizes to a single regular space or to the
empty string (the latter when no en-quad survives the per-line trim). -/
theorem invisible_only_normalizes_to_space_or_empty :
    ∀ s : List Char, s ≠ [] → (∀ c ∈ s, c = '\u200B' ∨ c = '\u2000') →
      clean_html s block_tags = [] ∨ clean_html s block_tags = [' '] := by
  intro s _hne hzq
  have hnl : ∀ c ∈ s, c ≠ '\n' := by
    intro c hc
    rcases hzq c hc with rfl | rfl <;> decide
  have h1 : squeeze '\n' s = s := squeezeAux_id '\n' false s hnl
  have hzq2 : ∀ c ∈ trimLines s, c = '\u200B' ∨ c = '\u2000' := by
    intro c hc
    exact hzq c (trimLinesAux_subset _ _ _ _ hc)
  have hlt2 : ∀ c ∈ trimLines s, c ≠ '<' := by
    intro c hc
    rcases hzq2 c hc with rfl | rfl <;> decide
  have hnl2 : ∀ c ∈ trimLines s, c ≠ '\n' := by
    intro c hc
    rcases hzq2 c hc with rfl | rfl <;> decide
  have h3 : blockNewlines block_tags (trimLines s) = trimLines s :=
    blockNewlinesAux_id _ _ _ hlt2
  have h4 : liNewlines (trimLines s) = trimLines s := liNewlinesAux_id _ _ hlt2
  have h5 : removeDivs (trimLines s) = trimLines s := removeDivsAux_id _ _ hlt2
  have h6 : squeeze '\n' (trimLines s) = trimLines s :=
    squeezeAux_id '\n' false _ hnl2
  have hsp : ∀ c ∈ removeControls (subSeparators (trimLines s)), c = ' ' := by
    intro c hc
    have hctl := removeControls_not_ctl _ _ hc
    have hmem := removeControls_subset _ _ hc
    rw [subSeparators] at hmem
    obtain ⟨x, hx, hfx⟩ := List.mem_map.mp hmem
    rcases hzq2 x hx with rfl | rfl
    · rw [show isSeparator '\u200B' = false from by decide] at hfx
      simp only [Bool.false_eq_true, if_false] at hfx
      rw [← hfx] at hctl
      exact absurd hctl (by decide)
    · rw [show isSeparator '\u2000' = true from by decide] at hfx
      simp only [if_true] at hfx
      exact hfx.symm
  rw [clean_html, h1, h3, h4, h5, h6]
  exact squeeze_space_all _ hsp

/-- C3, witness: applying the amended theorem at the concrete input
`"\u200B\u2000\u200B"`. -/
theorem invisible_only_witness :
    clean_html (chars ("\u200B\u2000\u200B")) block_tags = [] ∨
    clean_html (chars ("\u200B\u2000\u200B")) block_tags = [' '] :=
  invisible_only_normalizes_to_space_or_empty (chars ("\u200B\u2000\u200B"))
    (by decide) (by decide)

/-- C4, counterexample: the step-3 content group `(.+?)` is lazy, not
greedy: on `"<p>a</p><p>b</p>"` each block element is matched up to its
nearest closing tag and each closing tag receives its own newline, so the
output is not `"<p>a</p><p>b</p>\n"`. -/
theorem block_match_not_greedy :
    clean_html (chars ("<p>a</p><p>b</p>")) block_tags =
      chars ("<p>a</p>\n<p>b</p>\n") ∧
    chars ("<p>a</p>\n<p>b</p>\n") ≠ chars ("<p>a</p><p>b</p>\n") := by decide

/-- C4, amended: the engine matches the nearest closing tag (the match on
`"<p>a</p><p>b</p>"` has length 8, covering only `"<p>a</p>"`), so every
adjacent sibling's closing tag receives its own newline. -/
theorem block_match_nearest_closing :
    clean_html (chars ("<p>a</p><p>b</p>")) block_tags =
      chars ("<p>a</p>\n<p>b</p>\n") ∧
    matchBlockAt block_tags (chars ("<p>a</p><p>b</p>")) = some 8 := by decide

/-- C5, counterexample: the full `NormalizedText` invariant fails: on
`"a \u200B\n\u200B\nb"` the zero-width characters shield the whitespace
from steps 1-2 and are removed only in step 8, after the newline collapse,
leaving `"a \n\nb"` — a newline run of length two and a line with trailing
whitespace. -/
theorem normalized_text_invariant_fails :
    clean_html (chars ("a \u200B\n\u200B\nb")) block_tags = chars ("a \n\nb") ∧
    normalizedTextOk (clean_html (chars ("a \u200B\n\u200B\nb")) block_tags) =
      false := by decide

/-- C5, amended: the character-class parts of the invariant do hold for
every input and block-tag set: the output of `normalize` contains no
control/format character, no separator-space character, and no run of two
or more regular spaces (steps 7, 8, 9 are the last rewrites and nothing
reintroduces such characters); the newline-run and per-line-trim parts are
the ones that can fail. -/
theorem normalize_char_class_invariants :
    ∀ (html : List Char) (bt : List (List Char)),
      (clean_html html bt).all
        (fun c => !(isControlFmt c) && !(isSeparator c)) = true ∧
      noDouble ' ' (clean_html html bt) = true := by
  intro html bt
  constructor
  · rw [List.all_eq_true]
    intro c hc
    rw [clean_html, squeeze] at hc
    have hmem := squeezeAux_subset _ _ _ _ hc
    have hctl := removeControls_not_ctl _ _ hmem
    have hsep := subSeparators_not_sep _ _ (removeControls_subset _ _ hmem)
    simp [hctl, hsep]
  · rw [clean_html]
    exact noDoubleChk_squeezeAux ' ' _ false

/-- C6: whitelist invariant of `reduce`: on any tag input the returned
string is exactly the serialized reduced tree after `clean_html` and
`.strip()`, every tag occurrence in that string (each `'<'` it contains)
is an attribute-free opening or closing tag of the whitelist, and every
element surviving the traversal of lines 79-83 has a whitelisted tag name
and carries no attributes. -/
theorem reduce_string_whitelist_invariant :
    ∀ n : HtmlNode,
      parse_text_with_structure (.element n) =
        ([], .ok (stripPy (clean_html (serializeForest (reduceNode n))
          block_tags))) ∧
      tagsOk (stripPy (clean_html (serializeForest (reduceNode n))
        block_tags)) = true ∧
      forestOK (reduceNode n) = true := by
  intro n
  refine ⟨rfl, ?_, reduceNode_whitelisted n⟩
  exact wfTags_tagsOk _
    (stripPy_preserves_wf _
      (clean_html_preserves_wf _ (serializeForest_reduce_wf n)))

/-- C7: error contract of `reduce`: whenever the try block of
`parse_text_with_structure` raises an exception described by `e`, the
wrapper logs `"Error in HTML parsing: " ++ e` and raises the single error
kind `HTMLParsingError` with message `"Failed to process HTML: " ++ e`,
which contains both the fixed failure indication and the original
description; every outcome is either a normal return or that error kind. -/
theorem parse_error_contract :
    ∀ (e : List Char) (log : List (List Char)),
      parse_text_with_structure_except (.error e) log =
        (log ++ [chars ("Error in HTML parsing: ") ++ e],
          .error (chars ("Failed to process HTML: ") ++ e)) ∧
      chars ("Failed to process HTML") <:+:
        chars ("Failed to process HTML: ") ++ e ∧
      e <:+: chars ("Failed to process HTML: ") ++ e ∧
      ∀ tr : Except (List Char) (List Char),
        (∃ s, (parse_text_with_structure_except tr log).2 = .ok s) ∨
        (∃ e2, (parse_text_with_structure_except tr log).2 =
          .error (chars ("Failed to process HTML: ") ++ e2)) := by
  intro e log
  refine ⟨rfl, ⟨[], chars (": ") ++ e, rfl⟩,
    ⟨chars ("Failed to process HTML: "), [], by simp⟩, ?_⟩
  intro tr
  match tr with
  | .ok s => exact Or.inl ⟨s, rfl⟩
  | .error e2 => exact Or.inr ⟨e2, rfl⟩

/-- C8: totality of `normalize`: `clean_html` is a pure total function —
for every input string and block-tag set it returns a string; in
particular it maps the empty string to the empty string and handles
unbalanced tags and arbitrary Unicode without failing. -/
theorem clean_html_total :
    (∀ (html : List Char) (bt : List (List Char)),
      ∃ out, clean_html html bt = out) ∧
    clean_html (chars ("")) block_tags = chars ("") ∧
    clean_html (chars ("<p>a")) block_tags = chars ("<p>a") ∧
    clean_html (chars ("</p>")) block_tags = chars ("</p>") ∧
    clean_html (chars ("price\u2000cost")) block_tags = chars ("price cost") :=
  ⟨fun html bt => ⟨clean_html html bt, rfl⟩,
    by decide, by decide, by decide, by decide⟩

/-- C9: `normalize` leaves an interior tab or carriage return unchanged:
both characters lie outside the separator-space class and the
control/format removal class, and between two non-whitespace characters
the per-line trim does not touch them. -/
theorem clean_html_preserves_interior_tab_cr :
    ∀ c : Char, c = '\t' ∨ c = '\r' →
      clean_html ['a', c, 'b'] block_tags = ['a', c, 'b'] ∧
      isSeparator c = false ∧ isControlFmt c = false := by
  rintro c (rfl | rfl)
  · exact ⟨by decide, by decide, by decide⟩
  · exact ⟨by decide, by decide, by decide⟩

/-- C9, witness: the theorem applied at the tab character. -/
theorem clean_html_preserves_interior_tab_cr_witness :
    clean_html ['a', '\t', 'b'] block_tags = ['a', '\t', 'b'] ∧
    isSeparator '\t' = false ∧ isControlFmt '\t' = false :=
  clean_html_preserves_interior_tab_cr '\t' (Or.inl rfl)

/-- C10: the unconditional `li` rewrite fires only for a literal
attribute-free `<li>` opening tag with non-empty single-line content
(its `re.sub` has no `re.DOTALL`, so the content may not span a newline):
`"<li></li>"`, `"<li class=\"x\">a</li>"` and `"<li>a\nb</li>"` are left
unchanged (no newline inserted), while `"<li>a</li>"` gains exactly one
newline. -/
theorem li_rewrite_scope :
    clean_html (chars ("<li></li>")) block_tags = chars ("<li></li>") ∧
    clean_html (chars ("<li class=\"x\">a</li>")) block_tags =
      chars ("<li class=\"x\">a</li>") ∧
    clean_html (chars ("<li>a\nb</li>")) block_tags = chars ("<li>a\nb</li>") ∧
    clean_html (chars ("<li>a</li>")) block_tags = chars ("<li>a</li>\n") ∧
    matchLiAt (chars ("<li></li>")) = none ∧
    matchLiAt (chars ("<li class=\"x\">a</li>")) = none ∧
    matchLiAt (chars ("<li>a\nb</li>")) = none ∧
    matchLiAt (chars ("<li>\na</li>")) = none ∧
    matchLiAt (chars ("<li>a</li>")) = some 10 := by decide

end HtmlIngestor
